import Mathlib

/-!
# Verification of the road-network graph engine

Shallow embedding of the routing core of the ThesisCODE repository
(src/lib/routing.ts, and the segment assembly / status reconciliation code of
src/components/MapContainer.tsx) together with proofs about it.

Modelling conventions:
* JavaScript numbers are modelled as rationals (ℚ).  The transcendental
  function haversineDistance (sin/cos/atan2 over floats) has no exact rational
  form, so every definition that calls it takes it as an explicit function
  parameter named haversineDistance, with the same four-argument signature as
  the source; theorems either hold for every such function or state the
  properties of it they need as hypotheses.
* JavaScript Map / Set are modelled as association lists / duplicate-free
  lists in insertion order, which is the iteration order of the originals.
* The unbounded while-loop of the A* search is embedded with an explicit
  fuel parameter; running out of fuel yields none, a returned value is
  some r where r is exactly what the source returns (null becomes none).
-/

namespace ThesisCode

/-- The three-valued road status of src/components/MapContainer.tsx. -/
inductive RoadStatus
  | passable
  | restricted
  | blocked
deriving DecidableEq, Repr

/-- The properties bag carried by a GeoJSON road feature; only the fields the
embedded code reads are kept (highway class, the two id fields, name). -/
structure FeatureProps where
  highway : Option String
  atId : Option String
  idProp : Option String
  name : Option String
deriving DecidableEq, Repr

/-- A (lat, lng) coordinate pair. -/
abbrev Coord := ℚ × ℚ

/-- RoadSegment of src/components/MapContainer.tsx. -/
structure RoadSegment where
  id : String
  coordinates : List Coord
  properties : FeatureProps
  status : RoadStatus
deriving DecidableEq, Repr

/-- An adjacency-list entry { to, cost } of src/lib/routing.ts.  The source
field name to is a reserved word here, so it is spelled toIdx. -/
structure GraphEdge where
  toIdx : ℕ
  cost : ℚ
deriving DecidableEq, Repr

/-- GraphNode of src/lib/routing.ts. -/
structure GraphNode where
  id : ℕ
  lat : ℚ
  lng : ℚ
  edges : List GraphEdge
deriving DecidableEq, Repr

/-- Graph of src/lib/routing.ts. -/
structure Graph where
  nodes : List GraphNode
deriving DecidableEq, Repr

/-- Model of JavaScript toFixed(9) as used for the node key: the coordinate
scaled by 10^9 and rounded to the nearest integer.  Two rationals get the same
key entry exactly when they agree after this quantization. -/
def fix9 (q : ℚ) : ℤ := round (q * 1000000000)

/-- The quantization key "lat.toFixed(9),lng.toFixed(9)" of getOrCreateNode. -/
def quantKey (lat lng : ℚ) : ℤ × ℤ := (fix9 lat, fix9 lng)

/-- State of the graph-building loop: the node array plus the nodeIndexMap
(a JavaScript Map, modelled as an association list in insertion order). -/
structure BuildState where
  nodes : List GraphNode
  keyIndex : List ((ℤ × ℤ) × ℕ)
deriving Repr

/-- Association-list lookup, first match (keys are inserted at most once). -/
def lookupKey (l : List ((ℤ × ℤ) × ℕ)) (k : ℤ × ℤ) : Option ℕ :=
  match l with
  | [] => none
  | (k1, i) :: rest => if k1 = k then some i else lookupKey rest k

/-- getOrCreateNode of buildGraph: look the quantization key up in the map;
if absent, append a fresh node (id = current length, empty edge list). -/
def getOrCreateNode (st : BuildState) (lat lng : ℚ) : BuildState × ℕ :=
  match lookupKey st.keyIndex (quantKey lat lng) with
  | some i => (st, i)
  | none =>
      (⟨st.nodes ++ [⟨st.nodes.length, lat, lng, []⟩],
        st.keyIndex ++ [(quantKey lat lng, st.nodes.length)]⟩, st.nodes.length)

/-- nodes[i].edges.push(e): append an edge to the i-th node's list. -/
def pushEdge (nodes : List GraphNode) (i : ℕ) (e : GraphEdge) : List GraphNode :=
  match nodes[i]? with
  | some n => nodes.set i { n with edges := n.edges ++ [e] }
  | none => nodes

/-- The cost multiplier of buildGraph: in tall-vehicle mode restricted
segments cost 0.5 and everything else 1; otherwise restricted segments cost 3
and everything else 1. -/
def segBaseCost (tallVehicleMode : Bool) (status : RoadStatus) : ℚ :=
  if tallVehicleMode then
    if status = RoadStatus.restricted then 1/2 else 1
  else
    if status = RoadStatus.restricted then 3 else 1

/-- The body of buildGraph's inner loop for one consecutive coordinate pair
(p, q): get or create both endpoint nodes and push the edge in both
directions with cost haversineDistance * baseCost. -/
def addPairEdges (haversineDistance : ℚ → ℚ → ℚ → ℚ → ℚ) (baseCost : ℚ)
    (st : BuildState) (p q : Coord) : BuildState :=
  let r1 := getOrCreateNode st p.1 p.2
  let r2 := getOrCreateNode r1.1 q.1 q.2
  let dist := haversineDistance p.1 p.2 q.1 q.2 * baseCost
  ⟨pushEdge (pushEdge r2.1.nodes r1.2 ⟨r2.2, dist⟩) r2.2 ⟨r1.2, dist⟩,
    r2.1.keyIndex⟩

/-- The inner loop of buildGraph over one segment's coordinate list: the pair
body applied to every consecutive pair in order. -/
def addSegmentEdges (haversineDistance : ℚ → ℚ → ℚ → ℚ → ℚ) (baseCost : ℚ) :
    BuildState → List Coord → BuildState
  | st, p :: q :: rest =>
      addSegmentEdges haversineDistance baseCost
        (addPairEdges haversineDistance baseCost st p q) (q :: rest)
  | st, _ => st

/-- One iteration of buildGraph's outer loop: blocked segments are skipped
completely, otherwise the segment's consecutive pairs are added. -/
def buildStep (haversineDistance : ℚ → ℚ → ℚ → ℚ → ℚ) (tallVehicleMode : Bool)
    (st : BuildState) (seg : RoadSegment) : BuildState :=
  if seg.status = RoadStatus.blocked then st
  else addSegmentEdges haversineDistance (segBaseCost tallVehicleMode seg.status)
    st seg.coordinates

/-- buildGraph of src/lib/routing.ts. -/
def buildGraph (haversineDistance : ℚ → ℚ → ℚ → ℚ → ℚ)
    (roadSegments : List RoadSegment) (tallVehicleMode : Bool) : Graph :=
  ⟨(roadSegments.foldl (buildStep haversineDistance tallVehicleMode) ⟨[], []⟩).nodes⟩

/-- graph.nodes[i], with a dummy node out of range (the source would read
undefined there; all verified uses stay in range). -/
def nodeAt (graph : Graph) (i : ℕ) : GraphNode := graph.nodes.getD i ⟨0, 0, 0, []⟩

/-- There is an edge from node index u to node index v of cost c. -/
def HasEdge (graph : Graph) (u v : ℕ) (c : ℚ) : Prop :=
  u < graph.nodes.length ∧ ∃ e ∈ (nodeAt graph u).edges, e.toIdx = v ∧ e.cost = c

instance (graph : Graph) (u v : ℕ) (c : ℚ) : Decidable (HasEdge graph u v c) := by
  unfold HasEdge
  infer_instance

/-- A list of node indices that forms a walk in the graph, together with the
sum of the traversed edge costs.  ChainCost g l C: l is nonempty, every
consecutive pair is joined by an edge, and C is the sum of those edges'
costs. -/
inductive ChainCost (graph : Graph) : List ℕ → ℚ → Prop
  | single (u : ℕ) : ChainCost graph [u] 0
  | cons (u v : ℕ) (c : ℚ) (rest : List ℕ) (C : ℚ) :
      HasEdge graph u v c → ChainCost graph (v :: rest) C →
      ChainCost graph (u :: v :: rest) (c + C)

/-- The node array has, at index i, a node with the given quantization key. -/
def NodeKeyAt (nodes : List GraphNode) (i : ℕ) (k : ℤ × ℤ) : Prop :=
  ∃ n, nodes[i]? = some n ∧ quantKey n.lat n.lng = k

/-- The node array has an edge from index u to index v of cost c. -/
def MemEdge (nodes : List GraphNode) (u v : ℕ) (c : ℚ) : Prop :=
  ∃ n, nodes[u]? = some n ∧ ∃ e ∈ n.edges, e.toIdx = v ∧ e.cost = c

/-- The key map is in sync with the node array: every entry points at an
existing node whose quantized coordinates are the entry's key. -/
def KeySync (st : BuildState) : Prop :=
  ∀ k i, lookupKey st.keyIndex k = some i → NodeKeyAt st.nodes i k

/-- Every node stores its own array position in its id field. -/
def IdsIndexed (nodes : List GraphNode) : Prop :=
  ∀ (j : ℕ) (n : GraphNode), nodes[j]? = some n → n.id = j

/-- Every edge's target is a valid index into the node array. -/
def EdgeTargetsLt (nodes : List GraphNode) : Prop :=
  ∀ n ∈ nodes, ∀ e ∈ n.edges, e.toIdx < nodes.length

/-- Every edge has a reverse edge of the same cost. -/
def EdgeSym (nodes : List GraphNode) : Prop :=
  ∀ u v c, MemEdge nodes u v c → MemEdge nodes v u c

/-- findNearestNode of src/lib/routing.ts: linear scan with bestIdx starting
at -1 and bestDist starting at Infinity (modelled by none). -/
def findNearestNode (haversineDistance : ℚ → ℚ → ℚ → ℚ → ℚ) (graph : Graph)
    (lat lng : ℚ) : ℤ :=
  (graph.nodes.foldl
    (fun (acc : ℤ × Option ℚ × ℕ) node =>
      let d := haversineDistance lat lng node.lat node.lng
      let idx := acc.2.2
      match acc.2.1 with
      | none => ((idx : ℤ), some d, idx + 1)
      | some best =>
          if d < best then ((idx : ℤ), some d, idx + 1)
          else (acc.1, some best, idx + 1))
    (-1, none, 0)).1

/-- heuristic of astar: haversine distance between two nodes. -/
def heuristic (haversineDistance : ℚ → ℚ → ℚ → ℚ → ℚ) (a b : GraphNode) : ℚ :=
  haversineDistance a.lat a.lng b.lat b.lng

/-- The mutable state of the astar loop: the open set (a JavaScript Set,
modelled as a duplicate-free list in insertion order) and the cameFrom /
gScore / fScore maps.  A gScore or fScore of none models Infinity. -/
structure AStarState where
  openSet : List ℕ
  cameFrom : ℕ → Option ℕ
  gScore : ℕ → Option ℚ
  fScore : ℕ → Option ℚ

/-- Comparison a < b on scores where none models Infinity (so none is never
strictly below anything, and anything finite is strictly below none). -/
def ltInfty (a b : Option ℚ) : Bool :=
  match a, b with
  | some x, some y => decide (x < y)
  | some _, none => true
  | none, _ => false

/-- The open-set scan of astar: current starts at -1 with currentF Infinity
and is replaced whenever a strictly smaller fScore is found, in insertion
order. -/
def pickCurrent (st : AStarState) : ℤ × Option ℚ :=
  st.openSet.foldl
    (fun acc idx =>
      if ltInfty (st.fScore idx) acc.2 then ((idx : ℤ), st.fScore idx) else acc)
    (-1, none)

/-- openSet.add(x): a Set keeps the element's original position if present,
otherwise appends it. -/
def insertOpen (l : List ℕ) (x : ℕ) : List ℕ := if x ∈ l then l else l ++ [x]

/-- Pointwise map update, modelling map.set(k, a). -/
def setFun {α : Type} (f : ℕ → α) (k : ℕ) (a : α) : ℕ → α :=
  fun v => if v = k then a else f v

/-- The edge-relaxation body of astar: if gScore(current) + cost improves on
gScore(e.to) (with Infinity as none; an infinite gScore(current) never
improves anything, as in the source), update cameFrom, gScore, fScore and
re-insert the neighbour into the open set. -/
def relaxEdge (haversineDistance : ℚ → ℚ → ℚ → ℚ → ℚ) (graph : Graph)
    (goalIdx current : ℕ) (st : AStarState) (e : GraphEdge) : AStarState :=
  match st.gScore current with
  | none => st
  | some gc =>
      let tentativeG := gc + e.cost
      if ltInfty (some tentativeG) (st.gScore e.toIdx) then
        { openSet := insertOpen st.openSet e.toIdx,
          cameFrom := setFun st.cameFrom e.toIdx (some current),
          gScore := setFun st.gScore e.toIdx (some tentativeG),
          fScore := setFun st.fScore e.toIdx
            (some (tentativeG +
              heuristic haversineDistance (nodeAt graph e.toIdx) (nodeAt graph goalIdx))) }
      else st

/-- Path reconstruction of astar: path = [current]; while cameFrom has
current, prepend its predecessor.  Fuel-bounded; none means the fuel ran
out (the source loop would still be running). -/
def reconstructPath (cameFrom : ℕ → Option ℕ) : ℕ → ℕ → List ℕ → Option (List ℕ)
  | 0, _, _ => none
  | fuel + 1, current, acc =>
      match cameFrom current with
      | none => some (current :: acc)
      | some prev => reconstructPath cameFrom fuel prev (current :: acc)

/-- The while-loop of astar, fuel-bounded.  The outer none means the fuel ran
out; some none is the source's return null (open set exhausted); some (some
(path, g)) is a returned path together with the goal's final gScore, the
internally computed cost of the route.  When the scan leaves current at -1
(all open fScores infinite; the source would fault reading
graph.nodes[-1].edges) the state is left unchanged, so the run ends in
fuel exhaustion. -/
def astarLoop (haversineDistance : ℚ → ℚ → ℚ → ℚ → ℚ) (graph : Graph)
    (goalIdx : ℕ) : ℕ → AStarState → Option (Option (List ℕ × ℚ))
  | 0, _ => none
  | fuel + 1, st =>
      if st.openSet = [] then some none
      else
        let current := (pickCurrent st).1
        if current = (goalIdx : ℤ) then
          (reconstructPath st.cameFrom (graph.nodes.length + 1) goalIdx []).map
            (fun path => some (path, (st.gScore goalIdx).getD 0))
        else
          match current with
          | Int.ofNat cur =>
              let st1 : AStarState :=
                { st with openSet := st.openSet.erase cur }
              let st2 := (nodeAt graph cur).edges.foldl
                (relaxEdge haversineDistance graph goalIdx cur) st1
              astarLoop haversineDistance graph goalIdx fuel st2
          | Int.negSucc _ => astarLoop haversineDistance graph goalIdx fuel st

/-- The initial astar state: open set {start}, gScore all Infinity except
gScore(start) = 0, fScore(start) = heuristic(start, goal). -/
def astarInit (haversineDistance : ℚ → ℚ → ℚ → ℚ → ℚ) (graph : Graph)
    (startIdx goalIdx : ℕ) : AStarState :=
  { openSet := [startIdx],
    cameFrom := fun _ => none,
    gScore := fun v => if v = startIdx then some 0 else none,
    fScore := fun v =>
      if v = startIdx then
        some (heuristic haversineDistance (nodeAt graph startIdx) (nodeAt graph goalIdx))
      else none }

/-- astar together with the internally computed cost (the goal's final
gScore). -/
def astarWithCost (haversineDistance : ℚ → ℚ → ℚ → ℚ → ℚ) (graph : Graph)
    (startIdx goalIdx fuel : ℕ) : Option (Option (List ℕ × ℚ)) :=
  astarLoop haversineDistance graph goalIdx fuel
    (astarInit haversineDistance graph startIdx goalIdx)

/-- astar of src/lib/routing.ts (fuel-bounded; the source returns exactly the
node-index list). -/
def astar (haversineDistance : ℚ → ℚ → ℚ → ℚ → ℚ) (graph : Graph)
    (startIdx goalIdx fuel : ℕ) : Option (Option (List ℕ)) :=
  (astarWithCost haversineDistance graph startIdx goalIdx fuel).map
    (Option.map Prod.fst)

/-- The heuristic value of node index v with respect to the goal index:
heuristic(nodes[v], nodes[goal]). -/
def hnode (haversineDistance : ℚ → ℚ → ℚ → ℚ → ℚ) (graph : Graph)
    (goalIdx v : ℕ) : ℚ :=
  heuristic haversineDistance (nodeAt graph v) (nodeAt graph goalIdx)

/-- Non-strict comparison a ≤ b on scores where none models Infinity. -/
def leInfty (a b : Option ℚ) : Prop :=
  ∀ y, b = some y → ∃ x, a = some x ∧ x ≤ y

/-- The open-set scan loop of astar in isolation (used to reason about
pickCurrent, which equals pickFold over the open list from (-1, Infinity)). -/
def pickFold (f : ℕ → Option ℚ) (l : List ℕ) (acc : ℤ × Option ℚ) : ℤ × Option ℚ :=
  l.foldl (fun acc idx => if ltInfty (f idx) acc.2 then ((idx : ℤ), f idx) else acc) acc

/-- The predecessor relation of a cameFrom map: a is the stored predecessor
of b. -/
def cfRel (cameFrom : ℕ → Option ℕ) (a b : ℕ) : Prop := cameFrom b = some a

/-- One step along a cameFrom map: from a to its stored predecessor b. -/
def cfStep (cameFrom : ℕ → Option ℕ) (a b : ℕ) : Prop := cameFrom a = some b

/-- The core loop invariant of the astar search: the state facts that are
preserved by every single edge relaxation. -/
structure AInvCore (haversineDistance : ℚ → ℚ → ℚ → ℚ → ℚ) (graph : Graph)
    (startIdx goalIdx : ℕ) (st : AStarState) : Prop where
  open_lt : ∀ v ∈ st.openSet, v < graph.nodes.length
  open_g : ∀ v ∈ st.openSet, st.gScore v ≠ none
  g_dom : ∀ v : ℕ, st.gScore v ≠ none → v = startIdx ∨ v < graph.nodes.length
  g_nonneg : ∀ (v : ℕ) (x : ℚ), st.gScore v = some x → 0 ≤ x
  g_start : st.gScore startIdx = some 0
  fg : ∀ v : ℕ, st.fScore v =
    Option.map (fun x => x + hnode haversineDistance graph goalIdx v) (st.gScore v)
  cf_start : st.cameFrom startIdx = none
  cf_edge : ∀ v u : ℕ, st.cameFrom v = some u → ∃ c gu gv,
    HasEdge graph u v c ∧ st.gScore u = some gu ∧ st.gScore v = some gv ∧ gu + c ≤ gv
  g_cf : ∀ v : ℕ, st.gScore v ≠ none → v ≠ startIdx → st.cameFrom v ≠ none
  cf_acc : ∀ v : ℕ, Acc (cfRel st.cameFrom) v

/-- The full loop invariant: the core invariant together with the fact that
every node outside the open set has all its outgoing edges relaxed. -/
structure AInv (haversineDistance : ℚ → ℚ → ℚ → ℚ → ℚ) (graph : Graph)
    (startIdx goalIdx : ℕ) (st : AStarState)
    extends AInvCore haversineDistance graph startIdx goalIdx st : Prop where
  closed_relaxed : ∀ v : ℕ, v ∉ st.openSet → ∀ gv : ℚ, st.gScore v = some gv →
    ∀ e ∈ (nodeAt graph v).edges, ∃ gt, st.gScore e.toIdx = some gt ∧ gt ≤ gv + e.cost

/-- All edge costs of the graph are nonnegative and all edge targets in
range. -/
def GraphSane (graph : Graph) : Prop :=
  ∀ v : ℕ, v < graph.nodes.length →
    ∀ e ∈ (nodeAt graph v).edges, 0 ≤ e.cost ∧ e.toIdx < graph.nodes.length

/-- The heuristic is consistent on the graph's edges with respect to the
goal: it never drops by more than the edge cost. -/
def HeuristicConsistent (haversineDistance : ℚ → ℚ → ℚ → ℚ → ℚ) (graph : Graph)
    (goalIdx : ℕ) : Prop :=
  ∀ v : ℕ, v < graph.nodes.length → ∀ e ∈ (nodeAt graph v).edges,
    hnode haversineDistance graph goalIdx v ≤
      e.cost + hnode haversineDistance graph goalIdx e.toIdx

/-- nodesToLatLng of src/lib/routing.ts. -/
def nodesToLatLng (graph : Graph) (pathIdxs : List ℕ) : List Coord :=
  pathIdxs.map fun idx => ((nodeAt graph idx).lat, (nodeAt graph idx).lng)

/-- calculateRouteDistance of src/lib/routing.ts: the sum of haversine
distances between consecutive path nodes (0 when fewer than 2 nodes). -/
def calculateRouteDistance (haversineDistance : ℚ → ℚ → ℚ → ℚ → ℚ)
    (graph : Graph) : List ℕ → ℚ
  | i :: j :: rest =>
      haversineDistance (nodeAt graph i).lat (nodeAt graph i).lng
        (nodeAt graph j).lat (nodeAt graph j).lng +
      calculateRouteDistance haversineDistance graph (j :: rest)
  | _ => 0

/-- calculateETA of src/lib/routing.ts: minutes at the given average speed. -/
def calculateETA (distanceMeters avgSpeedKmh : ℚ) : ℚ :=
  distanceMeters / 1000 / avgSpeedKmh * 60

/-- The segment pre-filtering of the routing effect in
src/components/MapContainer.tsx (filteredSegments): tall vehicles keep
restricted and passable segments, regular vehicles keep only passable
segments. -/
def routeFilterSegments (tallVehicleRouting : Bool)
    (roadSegments : List RoadSegment) : List RoadSegment :=
  if tallVehicleRouting then
    roadSegments.filter fun s =>
      decide (s.status = RoadStatus.restricted ∨ s.status = RoadStatus.passable)
  else
    roadSegments.filter fun s => decide (s.status = RoadStatus.passable)

/-- A concrete distance function for the mode-preference scenario: 100 times
the taxicab distance, under which the direct segment below has length 100 and
each detour leg has length 125. -/
def havScenario : ℚ → ℚ → ℚ → ℚ → ℚ :=
  fun lat1 lng1 lat2 lng2 => 100 * (|lat2 - lat1| + |lng2 - lng1|)

/-- Properties of the scenario's features. -/
def scenarioProps : FeatureProps := ⟨some "residential", none, none, none⟩

/-- The restricted segment connecting A = (0,0) and B = (1,0) directly,
length 100 under havScenario. -/
def scenarioDirect : RoadSegment :=
  ⟨"direct", [(0, 0), (1, 0)], scenarioProps, RoadStatus.restricted⟩

/-- The passable detour A - C - B with C = (1/2, 3/4), total length 250 under
havScenario. -/
def scenarioDetour : RoadSegment :=
  ⟨"detour", [(0, 0), (1/2, 3/4), (1, 0)], scenarioProps, RoadStatus.passable⟩

/-- The scenario's segment set. -/
def scenarioSegments : List RoadSegment := [scenarioDirect, scenarioDetour]

/-! ### Segment assembly of src/components/MapContainer.tsx -/

/-- A raw GeoJSON line feature as consumed by initializeSegments: the
geometry coordinate list (in [lng, lat] order) and the properties bag. -/
structure GeoFeature where
  coordinates : List Coord
  properties : FeatureProps
deriving DecidableEq, Repr

/-- makeId of MapContainer.tsx with its closure counter made explicit: the
fresh id together with the incremented counter.  No code reachable from
initializeSegments calls it. -/
def makeId (counter : ℕ) : String × ℕ :=
  ("segment_" ++ toString (counter + 1), counter + 1)

/-- Left-pad a numeral with zeros to six digits (decimal rendering helper
for the toFixed(6) model). -/
def pad6 (n : ℕ) : String :=
  String.mk (List.replicate (6 - (toString n).length) '0') ++ toString n

/-- Model of JavaScript toFixed(6) on a rational: the sign of the value,
then the magnitude rounded to the nearest multiple of 10^-6, rendered with
exactly six fractional digits. -/
def fix6 (q : ℚ) : String :=
  (if q < 0 then "-" else "") ++
    toString ((round (|q| * 1000000)).toNat / 1000000) ++ "." ++
    pad6 ((round (|q| * 1000000)).toNat % 1000000)

/-- The coordinate string hashed by createDeterministicId: for each
coordinate `coord[0].toFixed(6),coord[1].toFixed(6)`, joined with `|`. -/
def coordString (coordinates : List Coord) : String :=
  String.intercalate "|" (coordinates.map fun c => fix6 c.1 ++ "," ++ fix6 c.2)

/-- Coercion of an integer into the JavaScript signed 32-bit range (the
`hash = hash & hash` step). -/
def toInt32 (z : ℤ) : ℤ :=
  (z + 2 ^ 31) % 2 ^ 32 - 2 ^ 31

/-- One step of the hash loop: hash = ((hash << 5) - hash) + charCode, where
the shift itself wraps to 32 bits and the result is wrapped again. -/
def hashStep (h : ℤ) (c : Char) : ℤ :=
  toInt32 (toInt32 (h * 32) - h + (c.toNat : ℤ))

/-- The accumulated string hash of createDeterministicId, starting at 0. -/
def jsHash (s : String) : ℤ :=
  s.data.foldl hashStep 0

/-- createDeterministicId of MapContainer.tsx.  A truthy lineId (present and
nonempty; the segment index is always supplied by the callers) yields
`{lineId}_seg_{segmentIndex}`; otherwise the id is `seg_` followed by the
absolute value of the coordinate-string hash. -/
def createDeterministicId (coordinates : List Coord) (lineId : Option String)
    (segmentIndex : ℕ) : String :=
  match lineId with
  | some lid =>
      if lid = "" then "seg_" ++ toString (jsHash (coordString coordinates)).natAbs
      else lid ++ "_seg_" ++ toString segmentIndex
  | none => "seg_" ++ toString (jsHash (coordString coordinates)).natAbs

/-- getLineIntersection of MapContainer.tsx over exact rationals: none when
the denominator is smaller than 1e-10 in absolute value or the parameters t,
u leave [0, 1]. -/
def getLineIntersection (p1 p2 p3 p4 : Coord) : Option Coord :=
  let denom := (p1.1 - p2.1) * (p3.2 - p4.2) - (p1.2 - p2.2) * (p3.1 - p4.1)
  if |denom| < 1 / 10000000000 then none
  else
    let t := ((p1.1 - p3.1) * (p3.2 - p4.2) - (p1.2 - p3.2) * (p3.1 - p4.1)) / denom
    let u := -((p1.1 - p2.1) * (p1.2 - p3.2) - (p1.2 - p2.2) * (p1.1 - p3.1)) / denom
    if 0 ≤ t ∧ t ≤ 1 ∧ 0 ≤ u ∧ u ≤ 1 then
      some (p1.1 + t * (p2.1 - p1.1), p1.2 + t * (p2.2 - p1.2))
    else none

/-- The consecutive-pair list of a polyline (loop index i paired with
i + 1). -/
def linePairs (line : List Coord) : List (Coord × Coord) :=
  line.zip line.tail

/-- findIntersections of MapContainer.tsx: every intersection of a segment
of line1 with a segment of line2, in loop order. -/
def findIntersections (line1 line2 : List Coord) : List Coord :=
  (linePairs line1).foldr
    (fun a acc =>
      ((linePairs line2).filterMap fun b => getLineIntersection a.1 a.2 b.1 b.2) ++ acc)
    []

/-- pointToLineDistance of MapContainer.tsx.  Math.sqrt has no rational
form, so it is taken as the explicit parameter sq, applied exactly where the
source calls Math.sqrt. -/
def pointToLineDistance (sq : ℚ → ℚ) (point lineStart lineEnd : Coord) : ℚ :=
  let dx := lineEnd.1 - lineStart.1
  let dy := lineEnd.2 - lineStart.2
  let len := sq (dx * dx + dy * dy)
  if len = 0 then
    sq ((point.1 - lineStart.1) ^ 2 + (point.2 - lineStart.2) ^ 2)
  else
    let t := max 0 (min 1
      (((point.1 - lineStart.1) * dx + (point.2 - lineStart.2) * dy) / (len * len)))
    sq ((point.1 - (lineStart.1 + t * dx)) ^ 2 + (point.2 - (lineStart.2 + t * dy)) ^ 2)

/-- getProjectionDistance of MapContainer.tsx (sq models Math.sqrt). -/
def getProjectionDistance (sq : ℚ → ℚ) (point lineStart lineEnd : Coord) : ℚ :=
  let dx := lineEnd.1 - lineStart.1
  let dy := lineEnd.2 - lineStart.2
  let len := sq (dx * dx + dy * dy)
  if len = 0 then 0
  else
    max 0 (min 1
      (((point.1 - lineStart.1) * dx + (point.2 - lineStart.2) * dy) / (len * len))) * len

/-- getDistanceAlongLine of MapContainer.tsx: scan the consecutive pairs
tracking (minDistance, bestDistance, accumulatedDistance), with none
modelling the initial Infinity of minDistance. -/
def getDistanceAlongLine (sq : ℚ → ℚ) (line : List Coord) (point : Coord) : ℚ :=
  ((linePairs line).foldl
    (fun acc ab =>
      if ltInfty (some (pointToLineDistance sq point ab.1 ab.2)) acc.1 then
        (some (pointToLineDistance sq point ab.1 ab.2),
          acc.2.2 + getProjectionDistance sq point ab.1 ab.2,
          acc.2.2 + sq ((ab.2.1 - ab.1.1) ^ 2 + (ab.2.2 - ab.1.2) ^ 2))
      else
        (acc.1, acc.2.1, acc.2.2 + sq ((ab.2.1 - ab.1.1) ^ 2 + (ab.2.2 - ab.1.2) ^ 2)))
    (none, 0, 0)).2.1

/-- findNearestPointIndex of MapContainer.tsx: index of the strictly closest
vertex, scanning left to right, starting from index 0 and Infinity. -/
def findNearestPointIndex (sq : ℚ → ℚ) (line : List Coord) (point : Coord) : ℕ :=
  (line.foldl
    (fun acc p =>
      if ltInfty (some (sq ((p.1 - point.1) ^ 2 + (p.2 - point.2) ^ 2))) acc.2.2 then
        (acc.1 + 1, acc.1, some (sq ((p.1 - point.1) ^ 2 + (p.2 - point.2) ^ 2)))
      else (acc.1 + 1, acc.2.1, acc.2.2))
    (0, 0, none)).2.1

/-- Insert into a list sorted by the second component, before the first
entry that is not strictly smaller (so equal entries keep their original
relative order, matching JavaScript's stable sort). -/
def insertByDist (x : Coord × ℚ) : List (Coord × ℚ) → List (Coord × ℚ)
  | [] => [x]
  | y :: ys => if x.2 ≤ y.2 then x :: y :: ys else y :: insertByDist x ys

/-- Stable ascending sort by the second component, modelling the stable
JavaScript sort with comparator (a, b) => a.distance - b.distance. -/
def sortByDist : List (Coord × ℚ) → List (Coord × ℚ)
  | [] => []
  | x :: xs => insertByDist x (sortByDist xs)

/-- The empty properties literal `\x7b\x7d` given to freshly split segments
before the assembler overwrites it with the feature's properties. -/
def emptyProps : FeatureProps := ⟨none, none, none, none⟩

/-- The body of splitLineAtIntersections' loop over the sorted intersection
points.  State is (currentStart, segments so far); intersectionIndex is
findNearestPointIndex of the point; a slice
line.slice(currentStart, intersectionIndex + 1) is pushed when the index
moved forward and the slice has more than one coordinate; currentStart is
then set to intersectionIndex unconditionally. -/
def splitStep (sq : ℚ → ℚ) (line : List Coord) (lineId : Option String)
    (st : ℕ × List RoadSegment) (pt : Coord) : ℕ × List RoadSegment :=
  if st.1 < findNearestPointIndex sq line pt then
    if 1 < ((line.drop st.1).take (findNearestPointIndex sq line pt + 1 - st.1)).length then
      (findNearestPointIndex sq line pt,
        st.2 ++ [⟨createDeterministicId
            ((line.drop st.1).take (findNearestPointIndex sq line pt + 1 - st.1))
            lineId st.2.length,
          (line.drop st.1).take (findNearestPointIndex sq line pt + 1 - st.1),
          emptyProps, RoadStatus.passable⟩])
    else (findNearestPointIndex sq line pt, st.2)
  else (findNearestPointIndex sq line pt, st.2)

/-- The tail step of splitLineAtIntersections: when currentStart has not
reached the last index, the final slice line.slice(currentStart) is pushed
if it has more than one coordinate. -/
def splitFinish (line : List Coord) (lineId : Option String)
    (r : ℕ × List RoadSegment) : List RoadSegment :=
  if r.1 < line.length - 1 then
    if 1 < (line.drop r.1).length then
      r.2 ++ [⟨createDeterministicId (line.drop r.1) lineId r.2.length,
        line.drop r.1, emptyProps, RoadStatus.passable⟩]
    else r.2
  else r.2

/-- splitLineAtIntersections of MapContainer.tsx: with no intersections the
entire line becomes a single passable segment with no length check at all;
otherwise the intersections are sorted by distance along the line and the
slices between successive nearest-vertex indices are collected. -/
def splitLineAtIntersections (sq : ℚ → ℚ) (line : List Coord)
    (intersections : List Coord) (lineId : Option String) : List RoadSegment :=
  if intersections = [] then
    [⟨createDeterministicId line lineId 0, line, emptyProps, RoadStatus.passable⟩]
  else
    splitFinish line lineId
      (((sortByDist (intersections.map fun p =>
          (p, getDistanceAlongLine sq line p))).map Prod.fst).foldl
        (splitStep sq line lineId) (0, []))

/-- The coordinate swap performed by initializeSegments: GeoJSON [lng, lat]
becomes [lat, lng]. -/
def swapCoords (l : List Coord) : List Coord := l.map fun c => (c.2, c.1)

/-- The highway filter of initializeSegments: a truthy highway value that is
not in the pedestrian list. -/
def highwayKept (f : GeoFeature) : Bool :=
  match f.properties.highway with
  | some h =>
      decide (h ≠ "" ∧ h ≠ "footway" ∧ h ≠ "cycleway" ∧ h ≠ "path" ∧ h ≠ "steps")
  | none => false

/-- The double loop collecting allIntersections: findIntersections of every
pair i < j of the (swapped) feature lines, in loop order. -/
def pairwiseIntersections : List (List Coord) → List Coord
  | [] => []
  | l :: rest =>
      rest.foldr (fun l2 acc => findIntersections l l2 ++ acc) [] ++
        pairwiseIntersections rest

/-- The per-feature filter on allIntersections: the intersection lies within
0.0001 of some vertex of the line in both components. -/
def nearLine (line : List Coord) (p : Coord) : Bool :=
  line.any fun q => decide (|q.1 - p.1| < 1 / 10000 ∧ |q.2 - p.2| < 1 / 10000)

/-- feature.properties['@id'] || feature.properties.id with JavaScript
falsiness: a missing or empty first field falls through to the second. -/
def featureLineId (f : GeoFeature) : Option String :=
  match f.properties.atId with
  | some s => if s = "" then f.properties.idProp else some s
  | none => f.properties.idProp

/-- The per-segment overlay of initializeSegments: a truthy database status
for the segment's id replaces the status, and the feature's properties bag
replaces the empty one. -/
def overlaySegment (latestStatusMap : String → Option RoadStatus)
    (props : FeatureProps) (seg : RoadSegment) : RoadSegment :=
  { seg with
    status := match latestStatusMap seg.id with
      | some s => s
      | none => seg.status,
    properties := props }

/-- Processing of one road feature by initializeSegments: swap the
coordinates, keep the intersections near the line, split, then overlay
status and properties. -/
def assembleFeature (sq : ℚ → ℚ) (allIntersections : List Coord)
    (latestStatusMap : String → Option RoadStatus) (f : GeoFeature) :
    List RoadSegment :=
  (splitLineAtIntersections sq (swapCoords f.coordinates)
    (allIntersections.filter (nearLine (swapCoords f.coordinates)))
    (featureLineId f)).map
    (overlaySegment latestStatusMap f.properties)

/-- The pure core of initializeSegments (MapContainer lines 432-497): filter
pedestrian features out, collect all pairwise intersections, then process
each remaining feature in order.  There is no malformed-feature check. -/
def assembleSegments (sq : ℚ → ℚ) (features : List GeoFeature)
    (latestStatusMap : String → Option RoadStatus) : List RoadSegment :=
  (features.filter highwayKept).foldr
    (fun f acc =>
      assembleFeature sq
        (pairwiseIntersections
          ((features.filter highwayKept).map fun f2 => swapCoords f2.coordinates))
        latestStatusMap f ++ acc)
    []

/-- initializeSegments with the makeId closure counter threaded through
explicitly: the assembler never invokes makeId, so the counter component
passes through untouched. -/
def assembleSegmentsCtr (sq : ℚ → ℚ) (features : List GeoFeature)
    (latestStatusMap : String → Option RoadStatus) (counter : ℕ) :
    List RoadSegment × ℕ :=
  (assembleSegments sq features latestStatusMap, counter)

/-- A vehicular feature with a single coordinate: it passes the highway
filter, and no check ever rejects its degenerate geometry. -/
def badFeature : GeoFeature :=
  ⟨[(0, 0)], ⟨some "residential", some "w1", none, none⟩⟩

/-! ### The real-time status reconciler of src/components/MapContainer.tsx -/

/-- The reconciler state: the segment array, the locallyUpdatedSegments ref
set, the not-yet-fired setTimeout deletions as (absolute fire time, id)
pairs, and the current contents of roadStatusUpdates (replaced wholesale by
every feed delivery). -/
structure RtState where
  segments : List RoadSegment
  pending : List String
  timers : List (ℚ × String)
  lastUpdates : List (String × RoadStatus)
deriving DecidableEq, Repr

/-- An externally observable event: a feed delivery (the new contents of
roadStatusUpdates) or a local status edit of one segment. -/
inductive RtEvent
  | feed (updates : List (String × RoadStatus))
  | edit (id : String) (status : RoadStatus)
deriving DecidableEq, Repr

/-- latestStatusMap as built by the effect: later update rows overwrite
earlier ones, so the lookup returns the last row with the given id. -/
def lookupLast (updates : List (String × RoadStatus)) (id : String) :
    Option RoadStatus :=
  updates.foldl (fun acc u => if u.1 = id then some u.2 else acc) none

/-- Fire every setTimeout whose time has been reached: each due deletion
removes its id from the pending set. -/
def fireDue (t : ℚ) (st : RtState) : RtState :=
  { st with
    pending := st.pending.filter fun id =>
      !((st.timers.filter fun p => decide (p.1 ≤ t)).any fun p => decide (p.2 = id)),
    timers := st.timers.filter fun p => !(decide (p.1 ≤ t)) }

/-- One execution of the real-time update effect (MapContainer lines
387-429) at time t: nothing at all happens when the update list or the
segment array is empty; otherwise every pending segment is kept unchanged
and schedules the deletion of its pending flag 2000 ms from now, and every
other segment takes the latest feed status for its id when one exists and
differs. -/
def runEffect (t : ℚ) (st : RtState) : RtState :=
  if st.lastUpdates = [] ∨ st.segments = [] then st
  else
    { st with
      segments := st.segments.map fun seg =>
        if seg.id ∈ st.pending then seg
        else
          match lookupLast st.lastUpdates seg.id with
          | some s => if s = seg.status then seg else { seg with status := s }
          | none => seg,
      timers := st.timers ++
        (st.segments.filter fun seg => decide (seg.id ∈ st.pending)).map
          fun seg => (t + 2000, seg.id) }

/-- One observable step at a given time: timers that are due fire first,
then the event is applied (a feed delivery replaces lastUpdates; a local
edit per handleSegmentStatusSelect adds the id to the pending set and
writes the status immediately), and then the effect runs, since its
dependency array [roadStatusUpdates, roadSegments] makes it execute after
either kind of change. -/
def rtStep (st : RtState) (e : ℚ × RtEvent) : RtState :=
  match e.2 with
  | RtEvent.feed u => runEffect e.1 { fireDue e.1 st with lastUpdates := u }
  | RtEvent.edit id s =>
      runEffect e.1
        { fireDue e.1 st with
          pending :=
            if id ∈ (fireDue e.1 st).pending then (fireDue e.1 st).pending
            else (fireDue e.1 st).pending ++ [id],
          segments := (fireDue e.1 st).segments.map fun seg =>
            if seg.id = id then { seg with status := s } else seg }

/-- Run a time-ordered event trace from an initial state. -/
def runTrace (st : RtState) (events : List (ℚ × RtEvent)) : RtState :=
  events.foldl rtStep st

/-- The current status of the segment with the given id (first match in the
segment array). -/
def statusOf (st : RtState) (id : String) : Option RoadStatus :=
  (st.segments.find? fun seg => decide (seg.id = id)).map RoadSegment.status

/-- The segment used in the suppression scenario, initially passable. -/
def segX : RoadSegment := ⟨"X", [(0, 0), (1, 0)], scenarioProps, RoadStatus.passable⟩

/-- Initial reconciler state: one passable segment, nothing pending, no
timers, no feed received yet. -/
def rtInit : RtState := ⟨[segX], [], [], []⟩

/-- A reconciler state in which segment X is already marked pending. -/
def rtPendingInit : RtState := ⟨[segX], ["X"], [], []⟩

/-- The suppression-expiry scenario: a local edit to restricted at time 0,
then a feed delivery carrying passable for the same segment at time 3000,
well after the claimed 2000 ms window. -/
def suppressionTrace : List (ℚ × RtEvent) :=
  [(0, RtEvent.edit "X" RoadStatus.restricted),
   (3000, RtEvent.feed [("X", RoadStatus.passable)])]


/-! ## Theorems -/

/-- buildGraph's fold ignores blocked segments, so folding over a list equals
folding over the list with blocked segments removed. -/
theorem foldl_buildStep_filter (hav : ℚ → ℚ → ℚ → ℚ → ℚ) (tall : Bool) :
    ∀ (segs : List RoadSegment) (st : BuildState),
      segs.foldl (buildStep hav tall) st =
        (segs.filter fun s => decide (s.status ≠ RoadStatus.blocked)).foldl
          (buildStep hav tall) st := by
  intro segs
  induction segs with
  | nil => intro st; rfl
  | cons s rest ih =>
      intro st
      by_cases hb : s.status = RoadStatus.blocked
      · have h1 : buildStep hav tall st s = st := by
          simp [buildStep, hb]
        have h2 : (s :: rest).filter (fun s => decide (s.status ≠ RoadStatus.blocked)) =
            rest.filter (fun s => decide (s.status ≠ RoadStatus.blocked)) := by
          simp [List.filter_cons, hb]
        rw [List.foldl_cons, h1, h2, ih]
      · have h2 : (s :: rest).filter (fun s => decide (s.status ≠ RoadStatus.blocked)) =
            s :: rest.filter (fun s => decide (s.status ≠ RoadStatus.blocked)) := by
          simp [List.filter_cons, hb]
        rw [List.foldl_cons, h2, List.foldl_cons, ih]

/-- C3: for every segment set and every vehicle mode the graph built by
buildGraph is identical to the graph built from the same set with all blocked
segments removed — blocked segments contribute zero edges (and zero nodes) to
the graph, so no edge originates from or terminates in a blocked segment. -/
theorem buildGraph_skips_blocked_segments (hav : ℚ → ℚ → ℚ → ℚ → ℚ)
    (segs : List RoadSegment) (tall : Bool) :
    buildGraph hav segs tall =
      buildGraph hav (segs.filter fun s => decide (s.status ≠ RoadStatus.blocked)) tall := by
  unfold buildGraph
  rw [foldl_buildStep_filter]

/-- C7: the pathfinding interface signals failure through distinct result
values, not exceptions: an astar iteration that starts with an empty open set
returns the explicit no-route value (the source's null, embedded as some
none), and findNearestNode on the empty graph returns the lookup-failure
value -1; the caller can branch on the two outcomes separately. -/
theorem astar_explicit_failure_values (hav : ℚ → ℚ → ℚ → ℚ → ℚ) (graph : Graph)
    (goalIdx fuel : ℕ) (st : AStarState) (lat lng : ℚ)
    (hopen : st.openSet = []) :
    astarLoop hav graph goalIdx (fuel + 1) st = some none ∧
    findNearestNode hav (Graph.mk []) lat lng = -1 := by
  constructor
  · simp [astarLoop, hopen]
  · rfl

/-- Witness for C7 at a concrete empty state and empty graph. -/
theorem astar_explicit_failure_values_witness :
    astarLoop (fun _ _ _ _ => 0) (Graph.mk []) 0 1
        ⟨[], fun _ => none, fun _ => none, fun _ => none⟩ = some none ∧
    findNearestNode (fun _ _ _ _ => 0) (Graph.mk []) 0 0 = -1 :=
  astar_explicit_failure_values (fun _ _ _ _ => 0) (Graph.mk []) 0 0
    ⟨[], fun _ => none, fun _ => none, fun _ => none⟩ 0 0 rfl



/-- C2 counterexample: in standard mode the routing pipeline does not keep
the restricted segment in the graph with multiplier 3.0 — the routing effect
filters restricted segments out entirely before buildGraph, so the built
graph has only the detour's edges of cost 125 and in particular no edge of
cost 300. -/
theorem mode_preference_counterexample :
    scenarioDirect ∈ scenarioSegments ∧
    scenarioDirect.status = RoadStatus.restricted ∧
    scenarioDirect ∉ routeFilterSegments false scenarioSegments ∧
    ((buildGraph havScenario (routeFilterSegments false scenarioSegments)
        false).nodes.all fun nd => nd.edges.all fun e =>
          decide (e.cost = 125)) = true := by
  with_unfolding_all decide

/-- C2 amended: in tall mode the pipeline (filter, buildGraph, findNearestNode,
astar) keeps both segments and chooses the restricted direct segment at cost
50 over the 250-cost detour; in standard mode the pipeline filters the
restricted segment out before graph construction, so the detour is the only
route and is returned at cost 250. -/
theorem mode_preference_scenario :
    routeFilterSegments true scenarioSegments = scenarioSegments ∧
    routeFilterSegments false scenarioSegments = [scenarioDetour] ∧
    findNearestNode havScenario
      (buildGraph havScenario (routeFilterSegments true scenarioSegments) true) 0 0 = 0 ∧
    findNearestNode havScenario
      (buildGraph havScenario (routeFilterSegments true scenarioSegments) true) 1 0 = 1 ∧
    astarWithCost havScenario
      (buildGraph havScenario (routeFilterSegments true scenarioSegments) true)
      0 1 10 = some (some ([0, 1], 50)) ∧
    findNearestNode havScenario
      (buildGraph havScenario (routeFilterSegments false scenarioSegments) false) 0 0 = 0 ∧
    findNearestNode havScenario
      (buildGraph havScenario (routeFilterSegments false scenarioSegments) false) 1 0 = 2 ∧
    astarWithCost havScenario
      (buildGraph havScenario (routeFilterSegments false scenarioSegments) false)
      0 2 10 = some (some ([0, 1, 2], 250)) := by
  with_unfolding_all decide

/-! ### Lemmas about the graph-building state -/

theorem getElem?_append_singleton {α : Type} (l : List α) (a : α) (j : ℕ) :
    (l ++ [a])[j]? = if j < l.length then l[j]?
      else if j = l.length then some a else none := by
  rcases lt_trichotomy j l.length with h | h | h
  · rw [if_pos h, List.getElem?_append_left h]
  · subst h
    simp [List.getElem?_concat_length]
  · rw [if_neg (by omega), if_neg (by omega)]
    rw [List.getElem?_eq_none]
    simp
    omega

theorem lookupKey_append (l1 l2 : List ((ℤ × ℤ) × ℕ)) (k : ℤ × ℤ) :
    lookupKey (l1 ++ l2) k =
      match lookupKey l1 k with
      | some i => some i
      | none => lookupKey l2 k := by
  induction l1 with
  | nil => rfl
  | cons kv rest ih =>
      rcases kv with ⟨k1, i⟩
      by_cases h : k1 = k
      · simp [lookupKey, h]
      · simp [lookupKey, h, ih]

theorem pushEdge_length (nodes : List GraphNode) (i : ℕ) (e : GraphEdge) :
    (pushEdge nodes i e).length = nodes.length := by
  unfold pushEdge
  cases h : nodes[i]? with
  | none => rfl
  | some n => simp

theorem pushEdge_getElem_ne (nodes : List GraphNode) (i : ℕ) (e : GraphEdge)
    (j : ℕ) (hne : i ≠ j) : (pushEdge nodes i e)[j]? = nodes[j]? := by
  unfold pushEdge
  cases h : nodes[i]? with
  | none => rfl
  | some n => exact List.getElem?_set_ne hne

theorem pushEdge_getElem_eq (nodes : List GraphNode) (i : ℕ) (e : GraphEdge)
    (n : GraphNode) (h : nodes[i]? = some n) :
    (pushEdge nodes i e)[i]? = some { n with edges := n.edges ++ [e] } := by
  unfold pushEdge
  rw [h]
  exact List.getElem?_set_eq_of_lt _ (List.getElem?_eq_some.mp h).1

/-- Characterization of membership after a pushEdge: the old edges plus, at
index i, the pushed edge. -/
theorem pushEdge_memEdge (nodes : List GraphNode) (i : ℕ) (e : GraphEdge)
    (u v : ℕ) (c : ℚ) :
    MemEdge (pushEdge nodes i e) u v c ↔
      MemEdge nodes u v c ∨
        (u = i ∧ v = e.toIdx ∧ c = e.cost ∧ ∃ n, nodes[i]? = some n) := by
  constructor
  · intro ⟨n', hn', e', he', hto, hc⟩
    by_cases hui : u = i
    · subst hui
      cases h : nodes[u]? with
      | none =>
          rw [pushEdge, h] at hn'
          exact Or.inl ⟨n', hn', e', he', hto, hc⟩
      | some n =>
          rw [pushEdge_getElem_eq nodes u e n h] at hn'
          injection hn' with hn'
          subst hn'
          simp only [List.mem_append, List.mem_singleton] at he'
          rcases he' with he' | he'
          · exact Or.inl ⟨n, h, e', he', hto, hc⟩
          · subst he'
            exact Or.inr ⟨rfl, hto.symm, hc.symm, n, rfl⟩
    · rw [pushEdge_getElem_ne nodes i e u (fun hh => hui hh.symm)] at hn'
      exact Or.inl ⟨n', hn', e', he', hto, hc⟩
  · intro h
    rcases h with ⟨n', hn', e', he', hto, hc⟩ | ⟨hu, hv, hc, n, hn⟩
    · by_cases hui : u = i
      · subst hui
        refine ⟨_, pushEdge_getElem_eq nodes u e n' hn', e', ?_, hto, hc⟩
        simp [he']
      · refine ⟨n', ?_, e', he', hto, hc⟩
        rw [pushEdge_getElem_ne nodes i e u (fun hh => hui hh.symm)]
        exact hn'
    · subst hu hv hc
      refine ⟨_, pushEdge_getElem_eq nodes u e n hn, e, ?_, rfl, rfl⟩
      simp

theorem pushEdge_nodeKeyAt (nodes : List GraphNode) (i : ℕ) (e : GraphEdge)
    (j : ℕ) (k : ℤ × ℤ) (h : NodeKeyAt nodes j k) :
    NodeKeyAt (pushEdge nodes i e) j k := by
  rcases h with ⟨n, hn, hk⟩
  by_cases hij : i = j
  · subst hij
    exact ⟨_, pushEdge_getElem_eq nodes i e n hn, hk⟩
  · exact ⟨n, by rw [pushEdge_getElem_ne nodes i e j hij]; exact hn, hk⟩

theorem getOrCreateNode_fst_length (st : BuildState) (lat lng : ℚ) :
    st.nodes.length ≤ (getOrCreateNode st lat lng).1.nodes.length := by
  unfold getOrCreateNode
  split
  · exact le_refl _
  · simp

theorem getOrCreateNode_getElem_lt (st : BuildState) (lat lng : ℚ) (j : ℕ)
    (hj : j < st.nodes.length) :
    (getOrCreateNode st lat lng).1.nodes[j]? = st.nodes[j]? := by
  unfold getOrCreateNode
  split
  · rfl
  · exact List.getElem?_append_left hj

theorem getOrCreateNode_nodeKeyAt (st : BuildState) (lat lng : ℚ) (j : ℕ)
    (k : ℤ × ℤ) (h : NodeKeyAt st.nodes j k) :
    NodeKeyAt (getOrCreateNode st lat lng).1.nodes j k := by
  rcases h with ⟨n, hn, hk⟩
  exact ⟨n, by
    rw [getOrCreateNode_getElem_lt st lat lng j (List.getElem?_eq_some.mp hn).1]
    exact hn, hk⟩

theorem getOrCreateNode_memEdge (st : BuildState) (lat lng : ℚ) (u v : ℕ)
    (c : ℚ) :
    MemEdge (getOrCreateNode st lat lng).1.nodes u v c ↔ MemEdge st.nodes u v c := by
  unfold getOrCreateNode
  split
  · exact Iff.rfl
  · constructor
    · intro ⟨n, hn, e, he, hto, hc⟩
      rw [getElem?_append_singleton] at hn
      split at hn
      · exact ⟨n, hn, e, he, hto, hc⟩
      · split at hn
        · injection hn with hn
          subst hn
          simp at he
        · exact absurd hn (by simp)
    · intro ⟨n, hn, e, he, hto, hc⟩
      refine ⟨n, ?_, e, he, hto, hc⟩
      rw [List.getElem?_append_left (List.getElem?_eq_some.mp hn).1]
      exact hn

/-- The full specification of getOrCreateNode under the key-map invariant:
the returned index is in range, carries the requested quantization key, and
the invariant is preserved. -/
theorem getOrCreateNode_spec (st : BuildState) (lat lng : ℚ)
    (hsync : KeySync st) :
    NodeKeyAt (getOrCreateNode st lat lng).1.nodes
        (getOrCreateNode st lat lng).2 (quantKey lat lng) ∧
      KeySync (getOrCreateNode st lat lng).1 ∧
      (getOrCreateNode st lat lng).2 < (getOrCreateNode st lat lng).1.nodes.length := by
  unfold getOrCreateNode
  cases h : lookupKey st.keyIndex (quantKey lat lng) with
  | some i =>
      refine ⟨hsync _ _ h, hsync, ?_⟩
      rcases hsync _ _ h with ⟨n, hn, _⟩
      exact (List.getElem?_eq_some.mp hn).1
  | none =>
      refine ⟨⟨_, List.getElem?_concat_length _ _, rfl⟩, ?_, by simp⟩
      intro k i hk
      rw [lookupKey_append] at hk
      cases hl : lookupKey st.keyIndex k with
      | some j =>
          rw [hl] at hk
          injection hk with hk
          subst hk
          rcases hsync _ _ hl with ⟨n, hn, hkey⟩
          exact ⟨n, by
            rw [List.getElem?_append_left (List.getElem?_eq_some.mp hn).1]
            exact hn, hkey⟩
      | none =>
          rw [hl] at hk
          simp only [lookupKey] at hk
          split at hk
          · injection hk with hk
            subst hk
            rename_i hkeq
            exact ⟨_, List.getElem?_concat_length _ _, hkeq⟩
          · cases hk

/-! ### Lemmas about addPairEdges and the build folds -/

theorem addPairEdges_length (hav : ℚ → ℚ → ℚ → ℚ → ℚ) (bc : ℚ)
    (st : BuildState) (p q : Coord) :
    st.nodes.length ≤ (addPairEdges hav bc st p q).nodes.length := by
  simp only [addPairEdges, pushEdge_length]
  exact le_trans (getOrCreateNode_fst_length _ _ _) (getOrCreateNode_fst_length _ _ _)

theorem addPairEdges_nodeKeyAt (hav : ℚ → ℚ → ℚ → ℚ → ℚ) (bc : ℚ)
    (st : BuildState) (p q : Coord) (j : ℕ) (k : ℤ × ℤ)
    (h : NodeKeyAt st.nodes j k) :
    NodeKeyAt (addPairEdges hav bc st p q).nodes j k := by
  simp only [addPairEdges]
  exact pushEdge_nodeKeyAt _ _ _ _ _ (pushEdge_nodeKeyAt _ _ _ _ _
    (getOrCreateNode_nodeKeyAt _ _ _ _ _ (getOrCreateNode_nodeKeyAt _ _ _ _ _ h)))

theorem addPairEdges_memEdge_mono (hav : ℚ → ℚ → ℚ → ℚ → ℚ) (bc : ℚ)
    (st : BuildState) (p q : Coord) (u v : ℕ) (c : ℚ)
    (h : MemEdge st.nodes u v c) :
    MemEdge (addPairEdges hav bc st p q).nodes u v c := by
  simp only [addPairEdges]
  refine (pushEdge_memEdge _ _ _ _ _ _).mpr (Or.inl ?_)
  refine (pushEdge_memEdge _ _ _ _ _ _).mpr (Or.inl ?_)
  exact (getOrCreateNode_memEdge _ _ _ _ _ _).mpr
    ((getOrCreateNode_memEdge _ _ _ _ _ _).mpr h)

theorem pushEdge_keyIndex_keySync (nodes : List GraphNode)
    (ki : List ((ℤ × ℤ) × ℕ)) (i : ℕ) (e : GraphEdge)
    (h : KeySync ⟨nodes, ki⟩) : KeySync ⟨pushEdge nodes i e, ki⟩ := by
  intro k j hk
  exact pushEdge_nodeKeyAt _ _ _ _ _ (h k j hk)

theorem addPairEdges_keySync (hav : ℚ → ℚ → ℚ → ℚ → ℚ) (bc : ℚ)
    (st : BuildState) (p q : Coord) (h : KeySync st) :
    KeySync (addPairEdges hav bc st p q) := by
  have h1 := (getOrCreateNode_spec st p.1 p.2 h).2.1
  have h2 := (getOrCreateNode_spec (getOrCreateNode st p.1 p.2).1 q.1 q.2 h1).2.1
  simp only [addPairEdges]
  exact pushEdge_keyIndex_keySync _ _ _ _ (pushEdge_keyIndex_keySync _ _ _ _ h2)

/-- The main local fact for C1: the pair body creates, for both endpoints,
in-range nodes carrying the endpoints' quantization keys, joined by edges of
cost haversine * baseCost in both directions. -/
theorem addPairEdges_spec (hav : ℚ → ℚ → ℚ → ℚ → ℚ) (bc : ℚ)
    (st : BuildState) (p q : Coord) (hsync : KeySync st) :
    ∃ iu iv,
      NodeKeyAt (addPairEdges hav bc st p q).nodes iu (quantKey p.1 p.2) ∧
      NodeKeyAt (addPairEdges hav bc st p q).nodes iv (quantKey q.1 q.2) ∧
      MemEdge (addPairEdges hav bc st p q).nodes iu iv (hav p.1 p.2 q.1 q.2 * bc) ∧
      MemEdge (addPairEdges hav bc st p q).nodes iv iu (hav p.1 p.2 q.1 q.2 * bc) := by
  obtain ⟨hk1, hs1, hlt1⟩ := getOrCreateNode_spec st p.1 p.2 hsync
  obtain ⟨hk2, hs2, hlt2⟩ :=
    getOrCreateNode_spec (getOrCreateNode st p.1 p.2).1 q.1 q.2 hs1
  refine ⟨(getOrCreateNode st p.1 p.2).2,
    (getOrCreateNode (getOrCreateNode st p.1 p.2).1 q.1 q.2).2, ?_, ?_, ?_, ?_⟩
  · simp only [addPairEdges]
    exact pushEdge_nodeKeyAt _ _ _ _ _ (pushEdge_nodeKeyAt _ _ _ _ _
      (getOrCreateNode_nodeKeyAt _ _ _ _ _ hk1))
  · simp only [addPairEdges]
    exact pushEdge_nodeKeyAt _ _ _ _ _ (pushEdge_nodeKeyAt _ _ _ _ _ hk2)
  · simp only [addPairEdges]
    refine (pushEdge_memEdge _ _ _ _ _ _).mpr (Or.inl ?_)
    refine (pushEdge_memEdge _ _ _ _ _ _).mpr (Or.inr ⟨rfl, rfl, rfl, ?_⟩)
    have hlt : (getOrCreateNode st p.1 p.2).2 <
        (getOrCreateNode (getOrCreateNode st p.1 p.2).1 q.1 q.2).1.nodes.length :=
      lt_of_lt_of_le hlt1 (getOrCreateNode_fst_length _ _ _)
    exact ⟨_, List.getElem?_eq_getElem hlt⟩
  · simp only [addPairEdges]
    refine (pushEdge_memEdge _ _ _ _ _ _).mpr (Or.inr ⟨rfl, rfl, rfl, ?_⟩)
    have hlt : (getOrCreateNode (getOrCreateNode st p.1 p.2).1 q.1 q.2).2 <
        (pushEdge (getOrCreateNode (getOrCreateNode st p.1 p.2).1 q.1 q.2).1.nodes
          (getOrCreateNode st p.1 p.2).2
          ⟨(getOrCreateNode (getOrCreateNode st p.1 p.2).1 q.1 q.2).2,
            hav p.1 p.2 q.1 q.2 * bc⟩).length := by
      rw [pushEdge_length]
      exact hlt2
    exact ⟨_, List.getElem?_eq_getElem hlt⟩

theorem addSegmentEdges_preserves (hav : ℚ → ℚ → ℚ → ℚ → ℚ) (bc : ℚ)
    (P : BuildState → Prop)
    (hstep : ∀ st p q, P st → P (addPairEdges hav bc st p q)) :
    ∀ (coords : List Coord) (st : BuildState), P st →
      P (addSegmentEdges hav bc st coords) := by
  intro coords
  induction coords with
  | nil => intro st h; exact h
  | cons p rest ih =>
      cases rest with
      | nil => intro st h; exact h
      | cons q rest2 =>
          intro st h
          rw [addSegmentEdges]
          exact ih _ (hstep st p q h)

theorem foldl_buildStep_preserves (hav : ℚ → ℚ → ℚ → ℚ → ℚ) (tall : Bool)
    (P : BuildState → Prop)
    (hstep : ∀ bc st p q, P st → P (addPairEdges hav bc st p q)) :
    ∀ (segs : List RoadSegment) (st : BuildState), P st →
      P (segs.foldl (buildStep hav tall) st) := by
  intro segs
  induction segs with
  | nil => intro st h; exact h
  | cons s rest ih =>
      intro st h
      rw [List.foldl_cons]
      refine ih _ ?_
      unfold buildStep
      split
      · exact h
      · exact addSegmentEdges_preserves hav _ P (hstep _) s.coordinates st h

/-- The pair at positions (i, i+1) of a segment's coordinate list ends up in
the state produced by addSegmentEdges, with both directions present. -/
theorem addSegmentEdges_pair (hav : ℚ → ℚ → ℚ → ℚ → ℚ) (bc : ℚ) :
    ∀ (coords : List Coord) (st : BuildState) (i : ℕ) (p q : Coord),
      KeySync st → coords[i]? = some p → coords[i + 1]? = some q →
      ∃ iu iv,
        NodeKeyAt (addSegmentEdges hav bc st coords).nodes iu (quantKey p.1 p.2) ∧
        NodeKeyAt (addSegmentEdges hav bc st coords).nodes iv (quantKey q.1 q.2) ∧
        MemEdge (addSegmentEdges hav bc st coords).nodes iu iv
          (hav p.1 p.2 q.1 q.2 * bc) ∧
        MemEdge (addSegmentEdges hav bc st coords).nodes iv iu
          (hav p.1 p.2 q.1 q.2 * bc) := by
  intro coords
  induction coords with
  | nil => intro st i p q _ hp _; simp at hp
  | cons p0 rest ih =>
      cases rest with
      | nil =>
          intro st i p q _ hp hq
          rcases Nat.eq_zero_or_pos i with hi | hi
          · subst hi; simp at hq
          · obtain ⟨j, rfl⟩ := Nat.exists_eq_add_of_lt hi
            simp at hq
      | cons q0 rest2 =>
          intro st i p q hsync hp hq
          rw [addSegmentEdges]
          rcases Nat.eq_zero_or_pos i with hi | hi
          · subst hi
            simp only [List.getElem?_cons_zero] at hp
            injection hp with hp
            subst hp
            simp only [List.getElem?_cons_succ, List.getElem?_cons_zero] at hq
            injection hq with hq
            subst hq
            obtain ⟨iu, iv, h1, h2, h3, h4⟩ := addPairEdges_spec hav bc st p0 q0 hsync
            refine ⟨iu, iv, ?_, ?_, ?_, ?_⟩
            · exact addSegmentEdges_preserves hav bc
                (fun s => NodeKeyAt s.nodes iu (quantKey p0.1 p0.2))
                (fun st p' q' h => addPairEdges_nodeKeyAt hav bc st p' q' _ _ h)
                _ _ h1
            · exact addSegmentEdges_preserves hav bc
                (fun s => NodeKeyAt s.nodes iv (quantKey q0.1 q0.2))
                (fun st p' q' h => addPairEdges_nodeKeyAt hav bc st p' q' _ _ h)
                _ _ h2
            · exact addSegmentEdges_preserves hav bc
                (fun s => MemEdge s.nodes iu iv (hav p0.1 p0.2 q0.1 q0.2 * bc))
                (fun st p' q' h => addPairEdges_memEdge_mono hav bc st p' q' _ _ _ h)
                _ _ h3
            · exact addSegmentEdges_preserves hav bc
                (fun s => MemEdge s.nodes iv iu (hav p0.1 p0.2 q0.1 q0.2 * bc))
                (fun st p' q' h => addPairEdges_memEdge_mono hav bc st p' q' _ _ _ h)
                _ _ h4
          · obtain ⟨j, rfl⟩ := Nat.exists_eq_add_of_lt hi
            simp only [Nat.zero_add, List.getElem?_cons_succ] at hp hq
            refine ih _ j p q (addPairEdges_keySync hav bc st p0 q0 hsync) hp ?_
            rw [List.getElem?_cons_succ]
            exact hq

theorem hasEdge_iff_memEdge (G : Graph) (u v : ℕ) (c : ℚ) :
    HasEdge G u v c ↔ MemEdge G.nodes u v c := by
  constructor
  · rintro ⟨hu, e, he, hto, hc⟩
    refine ⟨nodeAt G u, ?_, e, he, hto, hc⟩
    have := List.getElem?_eq_getElem hu
    rw [this]
    unfold nodeAt
    rw [List.getD_eq_getElem _ _ hu]
  · rintro ⟨n, hn, e, he, hto, hc⟩
    have hu := (List.getElem?_eq_some.mp hn).1
    refine ⟨hu, e, ?_, hto, hc⟩
    have : nodeAt G u = n := by
      unfold nodeAt
      simp [List.getD, hn]
    rw [this]
    exact he

theorem keySync_init : KeySync ⟨[], []⟩ := by
  intro k i h
  cases h

/-- C1: for every input segment whose status is not blocked and every
consecutive coordinate pair (p, q) of its coordinate sequence, the graph
built by buildGraph contains a node keyed by p's quantization and a node
keyed by q's quantization, joined by the edge p→q and the edge q→p, each of
cost haversineDistance(p, q) times the multiplier, where the multiplier is 1
for passable and 3 for restricted in standard mode, and 1 for passable and
1/2 for restricted in tall-vehicle mode. -/
theorem buildGraph_adds_edges_per_pair (hav : ℚ → ℚ → ℚ → ℚ → ℚ)
    (segs : List RoadSegment) (tall : Bool) (seg : RoadSegment) (i : ℕ)
    (p q : Coord) (hmem : seg ∈ segs) (hstat : seg.status ≠ RoadStatus.blocked)
    (hp : seg.coordinates[i]? = some p) (hq : seg.coordinates[i + 1]? = some q) :
    ∃ iu iv,
      NodeKeyAt (buildGraph hav segs tall).nodes iu (quantKey p.1 p.2) ∧
      NodeKeyAt (buildGraph hav segs tall).nodes iv (quantKey q.1 q.2) ∧
      HasEdge (buildGraph hav segs tall) iu iv
        (hav p.1 p.2 q.1 q.2 *
          (if tall then (if seg.status = RoadStatus.restricted then 1/2 else 1)
           else (if seg.status = RoadStatus.restricted then 3 else 1))) ∧
      HasEdge (buildGraph hav segs tall) iv iu
        (hav p.1 p.2 q.1 q.2 *
          (if tall then (if seg.status = RoadStatus.restricted then 1/2 else 1)
           else (if seg.status = RoadStatus.restricted then 3 else 1))) := by
  obtain ⟨l1, l2, rfl⟩ := List.append_of_mem hmem
  have hfold : (buildGraph hav (l1 ++ seg :: l2) tall).nodes =
      (l2.foldl (buildStep hav tall)
        (buildStep hav tall (l1.foldl (buildStep hav tall) ⟨[], []⟩) seg)).nodes := by
    unfold buildGraph
    rw [List.foldl_append, List.foldl_cons]
  have hsync1 : KeySync (l1.foldl (buildStep hav tall) ⟨[], []⟩) :=
    foldl_buildStep_preserves hav tall KeySync
      (fun bc st p' q' h => addPairEdges_keySync hav bc st p' q' h) l1 _ keySync_init
  have hstep : buildStep hav tall (l1.foldl (buildStep hav tall) ⟨[], []⟩) seg =
      addSegmentEdges hav (segBaseCost tall seg.status)
        (l1.foldl (buildStep hav tall) ⟨[], []⟩) seg.coordinates := by
    unfold buildStep
    rw [if_neg hstat]
  obtain ⟨iu, iv, h1, h2, h3, h4⟩ :=
    addSegmentEdges_pair hav (segBaseCost tall seg.status) seg.coordinates
      (l1.foldl (buildStep hav tall) ⟨[], []⟩) i p q hsync1 hp hq
  rw [← hstep] at h1 h2 h3 h4
  refine ⟨iu, iv, ?_, ?_, ?_, ?_⟩
  · rw [hfold]
    exact foldl_buildStep_preserves hav tall
      (fun s => NodeKeyAt s.nodes iu (quantKey p.1 p.2))
      (fun bc st p' q' h => addPairEdges_nodeKeyAt hav bc st p' q' _ _ h) l2 _ h1
  · rw [hfold]
    exact foldl_buildStep_preserves hav tall
      (fun s => NodeKeyAt s.nodes iv (quantKey q.1 q.2))
      (fun bc st p' q' h => addPairEdges_nodeKeyAt hav bc st p' q' _ _ h) l2 _ h2
  · rw [hasEdge_iff_memEdge, hfold]
    exact foldl_buildStep_preserves hav tall
      (fun s => MemEdge s.nodes iu iv (hav p.1 p.2 q.1 q.2 * segBaseCost tall seg.status))
      (fun bc st p' q' h => addPairEdges_memEdge_mono hav bc st p' q' _ _ _ h) l2 _ h3
  · rw [hasEdge_iff_memEdge, hfold]
    exact foldl_buildStep_preserves hav tall
      (fun s => MemEdge s.nodes iv iu (hav p.1 p.2 q.1 q.2 * segBaseCost tall seg.status))
      (fun bc st p' q' h => addPairEdges_memEdge_mono hav bc st p' q' _ _ _ h) l2 _ h4

/-- Witness for C1: in the concrete scenario set, the restricted direct
segment's single pair appears in the tall-mode graph in both directions. -/
theorem buildGraph_adds_edges_per_pair_witness :
    ∃ iu iv,
      NodeKeyAt (buildGraph havScenario scenarioSegments true).nodes iu
        (quantKey (0 : ℚ) (0 : ℚ)) ∧
      NodeKeyAt (buildGraph havScenario scenarioSegments true).nodes iv
        (quantKey (1 : ℚ) (0 : ℚ)) ∧
      HasEdge (buildGraph havScenario scenarioSegments true) iu iv
        (havScenario 0 0 1 0 *
          (if true then (if scenarioDirect.status = RoadStatus.restricted then 1/2 else 1)
           else (if scenarioDirect.status = RoadStatus.restricted then 3 else 1))) ∧
      HasEdge (buildGraph havScenario scenarioSegments true) iv iu
        (havScenario 0 0 1 0 *
          (if true then (if scenarioDirect.status = RoadStatus.restricted then 1/2 else 1)
           else (if scenarioDirect.status = RoadStatus.restricted then 3 else 1))) :=
  buildGraph_adds_edges_per_pair havScenario scenarioSegments true scenarioDirect 0
    (0, 0) (1, 0) (by with_unfolding_all decide) (by with_unfolding_all decide)
    (by with_unfolding_all decide) (by with_unfolding_all decide)

/-! ### Well-formedness and symmetry of built graphs -/

theorem getOrCreateNode_ids (st : BuildState) (lat lng : ℚ)
    (h : IdsIndexed st.nodes) : IdsIndexed (getOrCreateNode st lat lng).1.nodes := by
  unfold getOrCreateNode
  split
  · exact h
  · intro j n hn
    rw [getElem?_append_singleton] at hn
    split at hn
    · exact h j n hn
    · split at hn
      · rename_i hj
        injection hn with hn
        subst hn
        exact hj.symm
      · cases hn

theorem getOrCreateNode_targets (st : BuildState) (lat lng : ℚ)
    (h : EdgeTargetsLt st.nodes) : EdgeTargetsLt (getOrCreateNode st lat lng).1.nodes := by
  unfold getOrCreateNode
  split
  · exact h
  · intro n hn e he
    simp only [List.length_append, List.length_singleton]
    rw [List.mem_append] at hn
    rcases hn with hn | hn
    · exact lt_of_lt_of_le (h n hn e he) (by omega)
    · simp only [List.mem_singleton] at hn
      subst hn
      simp at he

theorem pushEdge_ids (nodes : List GraphNode) (i : ℕ) (e : GraphEdge)
    (h : IdsIndexed nodes) : IdsIndexed (pushEdge nodes i e) := by
  intro j n hn
  by_cases hij : i = j
  · subst hij
    cases hi : nodes[i]? with
    | none =>
        rw [pushEdge, hi] at hn
        exact h i n hn
    | some m =>
        rw [pushEdge_getElem_eq nodes i e m hi] at hn
        injection hn with hn
        subst hn
        exact h i m hi
  · rw [pushEdge_getElem_ne nodes i e j hij] at hn
    exact h j n hn

theorem pushEdge_targets (nodes : List GraphNode) (i : ℕ) (e : GraphEdge)
    (hlt : e.toIdx < nodes.length) (h : EdgeTargetsLt nodes) :
    EdgeTargetsLt (pushEdge nodes i e) := by
  intro n hn e' he'
  rw [pushEdge_length]
  unfold pushEdge at hn
  split at hn
  · rename_i m hm
    rcases List.mem_or_eq_of_mem_set hn with hn | hn
    · exact h n hn e' he'
    · subst hn
      simp only [List.mem_append, List.mem_singleton] at he'
      rcases he' with he' | he'
      · exact h m (List.getElem?_mem hm) e' he'
      · subst he'
        exact hlt
  · exact h n hn e' he'

theorem addPairEdges_wf (hav : ℚ → ℚ → ℚ → ℚ → ℚ) (bc : ℚ)
    (st : BuildState) (p q : Coord)
    (h : KeySync st ∧ IdsIndexed st.nodes ∧ EdgeTargetsLt st.nodes) :
    KeySync (addPairEdges hav bc st p q) ∧
      IdsIndexed (addPairEdges hav bc st p q).nodes ∧
      EdgeTargetsLt (addPairEdges hav bc st p q).nodes := by
  obtain ⟨hs, hi, ht⟩ := h
  obtain ⟨_, hs1, hlt1⟩ := getOrCreateNode_spec st p.1 p.2 hs
  obtain ⟨_, hs2, hlt2⟩ :=
    getOrCreateNode_spec (getOrCreateNode st p.1 p.2).1 q.1 q.2 hs1
  refine ⟨addPairEdges_keySync hav bc st p q hs, ?_, ?_⟩
  · simp only [addPairEdges]
    exact pushEdge_ids _ _ _ (pushEdge_ids _ _ _
      (getOrCreateNode_ids _ _ _ (getOrCreateNode_ids _ _ _ hi)))
  · simp only [addPairEdges]
    have hlt1' : (getOrCreateNode st p.1 p.2).2 <
        (getOrCreateNode (getOrCreateNode st p.1 p.2).1 q.1 q.2).1.nodes.length :=
      lt_of_lt_of_le hlt1 (getOrCreateNode_fst_length _ _ _)
    refine pushEdge_targets _ _ _ ?_ (pushEdge_targets _ _ _ hlt2
      (getOrCreateNode_targets _ _ _ (getOrCreateNode_targets _ _ _ ht)))
    rw [pushEdge_length]
    exact hlt1'

/-- C10-supporting invariant: every graph built by buildGraph is well formed:
node i stores id i, and every edge target is in range. -/
theorem buildGraph_invariants (hav : ℚ → ℚ → ℚ → ℚ → ℚ)
    (segs : List RoadSegment) (tall : Bool) :
    IdsIndexed (buildGraph hav segs tall).nodes ∧
      EdgeTargetsLt (buildGraph hav segs tall).nodes := by
  have hbase : KeySync (⟨[], []⟩ : BuildState) ∧
      IdsIndexed (BuildState.mk [] []).nodes ∧
      EdgeTargetsLt (BuildState.mk [] []).nodes := by
    refine ⟨keySync_init, ?_, ?_⟩
    · intro j n hn
      cases hn
    · intro n hn
      cases hn
  have h := foldl_buildStep_preserves hav tall
    (fun st => KeySync st ∧ IdsIndexed st.nodes ∧ EdgeTargetsLt st.nodes)
    (fun bc st p q h => addPairEdges_wf hav bc st p q h) segs ⟨[], []⟩ hbase
  exact ⟨h.2.1, h.2.2⟩

theorem addPairEdges_sym (hav : ℚ → ℚ → ℚ → ℚ → ℚ) (bc : ℚ)
    (st : BuildState) (p q : Coord)
    (h : KeySync st ∧ EdgeSym st.nodes) :
    KeySync (addPairEdges hav bc st p q) ∧ EdgeSym (addPairEdges hav bc st p q).nodes := by
  obtain ⟨hs, hsym⟩ := h
  obtain ⟨_, hs1, hlt1⟩ := getOrCreateNode_spec st p.1 p.2 hs
  obtain ⟨_, hs2, hlt2⟩ :=
    getOrCreateNode_spec (getOrCreateNode st p.1 p.2).1 q.1 q.2 hs1
  refine ⟨addPairEdges_keySync hav bc st p q hs, ?_⟩
  intro u v c hm
  have hlt1' : (getOrCreateNode st p.1 p.2).2 <
      (getOrCreateNode (getOrCreateNode st p.1 p.2).1 q.1 q.2).1.nodes.length :=
    lt_of_lt_of_le hlt1 (getOrCreateNode_fst_length _ _ _)
  simp only [addPairEdges] at hm ⊢
  rcases (pushEdge_memEdge _ _ _ _ _ _).mp hm with hm1 | ⟨hu, hv, hc, _⟩
  · rcases (pushEdge_memEdge _ _ _ _ _ _).mp hm1 with hm2 | ⟨hu, hv, hc, _⟩
    · have hold : MemEdge st.nodes u v c :=
        (getOrCreateNode_memEdge _ _ _ _ _ _).mp
          ((getOrCreateNode_memEdge _ _ _ _ _ _).mp hm2)
      have hrev := hsym u v c hold
      exact addPairEdges_memEdge_mono hav bc st p q v u c hrev
    · subst hu hv hc
      refine (pushEdge_memEdge _ _ _ _ _ _).mpr (Or.inr ⟨rfl, rfl, rfl, ?_⟩)
      have : (getOrCreateNode (getOrCreateNode st p.1 p.2).1 q.1 q.2).2 <
          (pushEdge (getOrCreateNode (getOrCreateNode st p.1 p.2).1 q.1 q.2).1.nodes
            (getOrCreateNode st p.1 p.2).2
            ⟨(getOrCreateNode (getOrCreateNode st p.1 p.2).1 q.1 q.2).2,
              hav p.1 p.2 q.1 q.2 * bc⟩).length := by
        rw [pushEdge_length]
        exact hlt2
      exact ⟨_, List.getElem?_eq_getElem this⟩
  · subst hu hv hc
    refine (pushEdge_memEdge _ _ _ _ _ _).mpr (Or.inl ?_)
    refine (pushEdge_memEdge _ _ _ _ _ _).mpr (Or.inr ⟨rfl, rfl, rfl, ?_⟩)
    exact ⟨_, List.getElem?_eq_getElem hlt1'⟩

/-- Every graph built by buildGraph has, for every edge, a reverse edge of
the same cost. -/
theorem buildGraph_edgeSym (hav : ℚ → ℚ → ℚ → ℚ → ℚ)
    (segs : List RoadSegment) (tall : Bool) :
    EdgeSym (buildGraph hav segs tall).nodes :=
  (foldl_buildStep_preserves hav tall
    (fun st => KeySync st ∧ EdgeSym st.nodes)
    (fun bc st p q h => addPairEdges_sym hav bc st p q h) segs ⟨[], []⟩
    ⟨keySync_init, fun u v c hm => by
      rcases hm with ⟨n, hn, _⟩
      cases hn⟩).2

theorem chainCost_snoc (G : Graph) (m : List ℕ) (C : ℚ) (v w : ℕ) (c : ℚ)
    (h : ChainCost G m C) (hlast : m.getLast? = some v) (he : HasEdge G v w c) :
    ChainCost G (m ++ [w]) (C + c) := by
  induction h with
  | single u =>
      simp only [List.getLast?_singleton] at hlast
      injection hlast with hlast
      subst hlast
      have := ChainCost.cons u w c [] 0 he (ChainCost.single w)
      simpa using this
  | cons u v0 c0 rest C0 he0 hch ih =>
      rw [List.getLast?_cons_cons] at hlast
      have := ChainCost.cons u v0 c0 (rest ++ [w]) (C0 + c) he0 (ih hlast)
      simpa [add_assoc] using this

theorem chainCost_reverse (G : Graph) (l : List ℕ) (C : ℚ)
    (h : ChainCost G l C) (hsym : ∀ u v c, HasEdge G u v c → HasEdge G v u c) :
    ChainCost G l.reverse C := by
  induction h with
  | single u => simpa using ChainCost.single u
  | cons u v c rest C0 he hch ih =>
      have hlast : (v :: rest).reverse.getLast? = some v := by
        rw [List.getLast?_reverse]
        rfl
      have := chainCost_snoc G (v :: rest).reverse C0 v u c ih hlast (hsym u v c he)
      rw [List.reverse_cons]
      simpa [add_comm] using this

/-- C4: every graph built by buildGraph is undirected: every edge (u→v, cost
c) has a reverse edge (v→u, cost c), and consequently every walk of cost C
reverses to a walk of cost C going the other way (so a path from A to B of
cost C yields a path from B to A of cost C). -/
theorem buildGraph_undirected (hav : ℚ → ℚ → ℚ → ℚ → ℚ)
    (segs : List RoadSegment) (tall : Bool) (u v : ℕ) (c : ℚ)
    (l : List ℕ) (C : ℚ)
    (he : HasEdge (buildGraph hav segs tall) u v c)
    (hc : ChainCost (buildGraph hav segs tall) l C) :
    HasEdge (buildGraph hav segs tall) v u c ∧
      ChainCost (buildGraph hav segs tall) l.reverse C ∧
      l.reverse.head? = l.getLast? ∧ l.reverse.getLast? = l.head? := by
  have hsym : ∀ u v c, HasEdge (buildGraph hav segs tall) u v c →
      HasEdge (buildGraph hav segs tall) v u c := by
    intro u v c h
    rw [hasEdge_iff_memEdge] at h ⊢
    exact buildGraph_edgeSym hav segs tall u v c h
  exact ⟨hsym u v c he, chainCost_reverse _ l C hc hsym,
    List.head?_reverse l, List.getLast?_reverse l⟩

/-- Witness for C4 on the concrete scenario graph: the tall-mode direct edge
0→1 of cost 50 reverses, and the walk [0, 1] of cost 50 reverses. -/
theorem buildGraph_undirected_witness :
    HasEdge (buildGraph havScenario scenarioSegments true) 1 0 50 ∧
      ChainCost (buildGraph havScenario scenarioSegments true) [0, 1].reverse 50 ∧
      ([0, 1] : List ℕ).reverse.head? = [0, 1].getLast? ∧
      ([0, 1] : List ℕ).reverse.getLast? = [0, 1].head? := by
  have he : HasEdge (buildGraph havScenario scenarioSegments true) 0 1 50 := by
    with_unfolding_all decide
  have hc : ChainCost (buildGraph havScenario scenarioSegments true) [0, 1] 50 := by
    have := ChainCost.cons 0 1 50 [] 0 he (ChainCost.single 1)
    simpa using this
  exact buildGraph_undirected havScenario scenarioSegments true 0 1 50 [0, 1] 50 he hc

/-! ### Facts about the score order with Infinity -/

theorem ltInfty_irrefl (a : Option ℚ) : ltInfty a a = false := by
  cases a <;> simp [ltInfty]

theorem ltInfty_false_trans (a b c : Option ℚ) (h1 : ltInfty a b = false)
    (h2 : ltInfty b c = false) : ltInfty a c = false := by
  cases a <;> cases b <;> cases c <;> simp_all [ltInfty] <;> linarith

theorem ltInfty_lt_ge (x a r : Option ℚ) (h1 : ltInfty x a = true)
    (h2 : ltInfty x r = false) : ltInfty a r = false := by
  cases x <;> cases a <;> cases r <;> simp_all [ltInfty] <;> linarith

theorem setFun_eq {α : Type} (f : ℕ → α) (k : ℕ) (a : α) : setFun f k a k = a := by
  simp [setFun]

theorem setFun_ne {α : Type} (f : ℕ → α) (k : ℕ) (a : α) (v : ℕ) (h : v ≠ k) :
    setFun f k a v = f v := by
  simp [setFun, h]

theorem pickFold_spec (f : ℕ → Option ℚ) :
    ∀ (l : List ℕ) (acc : ℤ × Option ℚ),
      (pickFold f l acc = acc ∨ ∃ m ∈ l, pickFold f l acc = ((m : ℤ), f m)) ∧
        (∀ v ∈ l, ltInfty (f v) (pickFold f l acc).2 = false) ∧
        ltInfty acc.2 (pickFold f l acc).2 = false := by
  intro l
  induction l with
  | nil =>
      intro acc
      exact ⟨Or.inl rfl, by simp, ltInfty_irrefl _⟩
  | cons x rest ih =>
      intro acc
      cases hx : ltInfty (f x) acc.2 with
      | true =>
          have hfold : pickFold f (x :: rest) acc = pickFold f rest ((x : ℤ), f x) := by
            simp [pickFold, List.foldl_cons, hx]
          obtain ⟨hc, hmin, hle⟩ := ih ((x : ℤ), f x)
          rw [hfold]
          refine ⟨?_, ?_, ?_⟩
          · rcases hc with hc | ⟨m, hm, hc⟩
            · exact Or.inr ⟨x, List.mem_cons_self x rest, hc⟩
            · exact Or.inr ⟨m, List.mem_cons_of_mem x hm, hc⟩
          · intro v hv
            rcases List.mem_cons.mp hv with rfl | hv
            · exact hle
            · exact hmin v hv
          · exact ltInfty_lt_ge (f x) acc.2 _ hx hle
      | false =>
          have hfold : pickFold f (x :: rest) acc = pickFold f rest acc := by
            simp [pickFold, List.foldl_cons, hx]
          obtain ⟨hc, hmin, hle⟩ := ih acc
          rw [hfold]
          refine ⟨?_, ?_, ?_⟩
          · rcases hc with hc | ⟨m, hm, hc⟩
            · exact Or.inl hc
            · exact Or.inr ⟨m, List.mem_cons_of_mem x hm, hc⟩
          · intro v hv
            rcases List.mem_cons.mp hv with rfl | hv
            · exact ltInfty_false_trans _ _ _ hx hle
            · exact hmin v hv
          · exact hle

theorem pickCurrent_spec (st : AStarState) :
    pickCurrent st = (-1, none) ∨
      ∃ m ∈ st.openSet, pickCurrent st = ((m : ℤ), st.fScore m) ∧
        ∀ v ∈ st.openSet, ltInfty (st.fScore v) (st.fScore m) = false := by
  have hdef : pickCurrent st = pickFold st.fScore st.openSet (-1, none) := rfl
  obtain ⟨hc, hmin, _⟩ := pickFold_spec st.fScore st.openSet (-1, none)
  rcases hc with hc | ⟨m, hm, hc⟩
  · left
    rw [hdef, hc]
  · right
    refine ⟨m, hm, by rw [hdef, hc], ?_⟩
    intro v hv
    have := hmin v hv
    rw [hc] at this
    exact this

/-! ### Case analysis and preservation for edge relaxation -/

theorem relaxEdge_cases (hav : ℚ → ℚ → ℚ → ℚ → ℚ) (graph : Graph)
    (goalIdx cur : ℕ) (st : AStarState) (e : GraphEdge) :
    relaxEdge hav graph goalIdx cur st e = st ∨
      ∃ gc, st.gScore cur = some gc ∧
        ltInfty (some (gc + e.cost)) (st.gScore e.toIdx) = true ∧
        relaxEdge hav graph goalIdx cur st e =
          { openSet := insertOpen st.openSet e.toIdx,
            cameFrom := setFun st.cameFrom e.toIdx (some cur),
            gScore := setFun st.gScore e.toIdx (some (gc + e.cost)),
            fScore := setFun st.fScore e.toIdx
              (some (gc + e.cost +
                heuristic hav (nodeAt graph e.toIdx) (nodeAt graph goalIdx))) } := by
  unfold relaxEdge
  split
  · exact Or.inl rfl
  · rename_i gc hg
    dsimp only
    split
    · rename_i hlt
      exact Or.inr ⟨gc, hg, hlt, rfl⟩
    · exact Or.inl rfl

theorem mem_insertOpen (l : List ℕ) (x v : ℕ) :
    v ∈ insertOpen l x ↔ v ∈ l ∨ v = x := by
  unfold insertOpen
  split
  · rename_i hx
    constructor
    · exact Or.inl
    · rintro (h | rfl)
      · exact h
      · exact hx
  · simp [List.mem_append]

theorem leInfty_refl (a : Option ℚ) : leInfty a a := by
  intro y hy
  exact ⟨y, hy, le_refl y⟩

theorem leInfty_trans (a b c : Option ℚ) (h1 : leInfty a b) (h2 : leInfty b c) :
    leInfty a c := by
  intro y hy
  obtain ⟨x, hx, hxy⟩ := h2 y hy
  obtain ⟨w, hw, hwx⟩ := h1 x hx
  exact ⟨w, hw, le_trans hwx hxy⟩

theorem ltInfty_true_some (x : ℚ) (b : Option ℚ) (h : ltInfty (some x) b = true) :
    b = none ∨ ∃ y, b = some y ∧ x < y := by
  cases b with
  | none => exact Or.inl rfl
  | some y =>
      simp only [ltInfty, decide_eq_true_eq] at h
      exact Or.inr ⟨y, rfl, h⟩

theorem ltInfty_false_some (x : ℚ) (b : Option ℚ) (h : ltInfty (some x) b = false) :
    ∃ y, b = some y ∧ y ≤ x := by
  cases b with
  | none => simp [ltInfty] at h
  | some y =>
      simp only [ltInfty, decide_eq_false_iff_not, not_lt] at h
      exact ⟨y, rfl, h⟩

theorem relaxEdge_open_mono (hav : ℚ → ℚ → ℚ → ℚ → ℚ) (graph : Graph)
    (goalIdx cur : ℕ) (st : AStarState) (e : GraphEdge) (v : ℕ)
    (h : v ∈ st.openSet) : v ∈ (relaxEdge hav graph goalIdx cur st e).openSet := by
  rcases relaxEdge_cases hav graph goalIdx cur st e with heq | ⟨gc, hg, hlt, heq⟩
  · rw [heq]; exact h
  · rw [heq]
    exact (mem_insertOpen _ _ _).mpr (Or.inl h)

theorem relaxEdge_g_le (hav : ℚ → ℚ → ℚ → ℚ → ℚ) (graph : Graph)
    (goalIdx cur : ℕ) (st : AStarState) (e : GraphEdge) (v : ℕ) :
    leInfty ((relaxEdge hav graph goalIdx cur st e).gScore v) (st.gScore v) := by
  rcases relaxEdge_cases hav graph goalIdx cur st e with heq | ⟨gc, hg, hlt, heq⟩
  · rw [heq]; exact leInfty_refl _
  · rw [heq]
    by_cases hv : v = e.toIdx
    · subst hv
      intro y hy
      rcases ltInfty_true_some _ _ hlt with hb | ⟨y', hy', hxy⟩
      · rw [hb] at hy; cases hy
      · rw [hy'] at hy
        injection hy with hy
        subst hy
        exact ⟨gc + e.cost, setFun_eq _ _ _, le_of_lt hxy⟩
    · show leInfty (setFun st.gScore e.toIdx _ v) (st.gScore v)
      rw [setFun_ne _ _ _ _ hv]
      exact leInfty_refl _

theorem relaxEdge_g_changed (hav : ℚ → ℚ → ℚ → ℚ → ℚ) (graph : Graph)
    (goalIdx cur : ℕ) (st : AStarState) (e : GraphEdge) (v : ℕ)
    (h : (relaxEdge hav graph goalIdx cur st e).gScore v ≠ st.gScore v) :
    v = e.toIdx ∧ v ∈ (relaxEdge hav graph goalIdx cur st e).openSet := by
  rcases relaxEdge_cases hav graph goalIdx cur st e with heq | ⟨gc, hg, hlt, heq⟩
  · rw [heq] at h; exact absurd rfl h
  · by_cases hv : v = e.toIdx
    · subst hv
      rw [heq]
      exact ⟨rfl, (mem_insertOpen _ _ _).mpr (Or.inr rfl)⟩
    · rw [heq] at h
      exact absurd (setFun_ne _ _ _ _ hv) h

theorem relaxEdge_g_some (hav : ℚ → ℚ → ℚ → ℚ → ℚ) (graph : Graph)
    (goalIdx cur : ℕ) (st : AStarState) (e : GraphEdge) (v : ℕ)
    (h : st.gScore v ≠ none) :
    (relaxEdge hav graph goalIdx cur st e).gScore v ≠ none := by
  rcases relaxEdge_cases hav graph goalIdx cur st e with heq | ⟨gc, hg, hlt, heq⟩
  · rw [heq]; exact h
  · rw [heq]
    dsimp only
    by_cases hv : v = e.toIdx
    · subst hv
      rw [setFun_eq]
      exact Option.some_ne_none _
    · rw [setFun_ne _ _ _ _ hv]
      exact h

theorem relaxEdge_gcur_stable (hav : ℚ → ℚ → ℚ → ℚ → ℚ) (graph : Graph)
    (goalIdx cur : ℕ) (st : AStarState) (e : GraphEdge) (hc : 0 ≤ e.cost)
    (hnn : ∀ (v : ℕ) (x : ℚ), st.gScore v = some x → 0 ≤ x) :
    (relaxEdge hav graph goalIdx cur st e).gScore cur = st.gScore cur := by
  rcases relaxEdge_cases hav graph goalIdx cur st e with heq | ⟨gc, hg, hlt, heq⟩
  · rw [heq]
  · rw [heq]
    dsimp only
    by_cases hv : cur = e.toIdx
    · exfalso
      rw [← hv] at hlt
      rcases ltInfty_true_some _ _ hlt with hb | ⟨y, hy, hxy⟩
      · rw [hb] at hg; cases hg
      · rw [hg] at hy
        injection hy with hy
        subst hy
        linarith
    · rw [setFun_ne _ _ _ _ hv]

/-! ### Acyclicity machinery for the cameFrom map -/

theorem cycle_not_acc (cf : ℕ → Option ℕ) (v : ℕ) (hacc : Acc (cfRel cf) v) :
    ∀ u, cf v = some u → ¬ Relation.ReflTransGen (cfStep cf) u v := by
  induction hacc with
  | intro v hparents ih =>
      intro u hcf hanc
      rcases Relation.ReflTransGen.cases_head hanc with heq | ⟨w, hw, hwv⟩
      · subst heq
        exact ih u hcf u hcf Relation.ReflTransGen.refl
      · exact ih u hcf w hw (hwv.tail hcf)

theorem anc_g_le (cf : ℕ → Option ℕ) (g : ℕ → Option ℚ)
    (hcf_g : ∀ v u : ℕ, cf v = some u →
      ∃ gu gv, g u = some gu ∧ g v = some gv ∧ gu ≤ gv) :
    ∀ x y : ℕ, Relation.ReflTransGen (cfStep cf) x y →
      ∀ gx, g x = some gx → ∃ gy, g y = some gy ∧ gy ≤ gx := by
  intro x y h
  induction h with
  | refl =>
      intro gx hg
      exact ⟨gx, hg, le_refl _⟩
  | tail hab hbc ih =>
      intro gx hg
      obtain ⟨gb, hgb, hle⟩ := ih gx hg
      obtain ⟨gc', gb', hgc, hgb', hle2⟩ := hcf_g _ _ hbc
      rw [hgb] at hgb'
      injection hgb' with hgb'
      subst hgb'
      exact ⟨gc', hgc, le_trans hle2 hle⟩

theorem acc_update (cf : ℕ → Option ℕ) (v u : ℕ)
    (hacc : ∀ w, Acc (cfRel cf) w)
    (hnoanc : ¬ Relation.ReflTransGen (cfStep cf) u v) :
    ∀ w, Acc (cfRel (setFun cf v (some u))) w := by
  have hA : ∀ x, Acc (cfRel cf) x → ¬ Relation.ReflTransGen (cfStep cf) x v →
      Acc (cfRel (setFun cf v (some u))) x := by
    intro x hx
    induction hx with
    | intro x hparents ih =>
        intro hxv
        constructor
        intro y hy
        have hxne : x ≠ v := fun h => hxv (h ▸ Relation.ReflTransGen.refl)
        rw [show cfRel (setFun cf v (some u)) y x = (setFun cf v (some u) x = some y)
          from rfl, setFun_ne _ _ _ _ hxne] at hy
        refine ih y hy ?_
        intro hyv
        exact hxv (Relation.ReflTransGen.head hy hyv)
  have hAv : Acc (cfRel (setFun cf v (some u))) v := by
    constructor
    intro y hy
    rw [show cfRel (setFun cf v (some u)) y v = (setFun cf v (some u) v = some y)
      from rfl, setFun_eq] at hy
    injection hy with hy
    subst hy
    exact hA u (hacc u) hnoanc
  intro w
  have hw := hacc w
  induction hw with
  | intro w hparents ih =>
      by_cases hwv : w = v
      · subst hwv
        exact hAv
      · constructor
        intro y hy
        rw [show cfRel (setFun cf v (some u)) y w = (setFun cf v (some u) w = some y)
          from rfl, setFun_ne _ _ _ _ hwv] at hy
        exact ih y hy

/-- One edge relaxation preserves the core invariant. -/
theorem relaxEdge_inv_core (hav : ℚ → ℚ → ℚ → ℚ → ℚ) (graph : Graph)
    (startIdx goalIdx cur : ℕ) (st : AStarState) (e : GraphEdge)
    (hsane : GraphSane graph)
    (hcurlt : cur < graph.nodes.length)
    (he : e ∈ (nodeAt graph cur).edges)
    (hinv : AInvCore hav graph startIdx goalIdx st) :
    AInvCore hav graph startIdx goalIdx (relaxEdge hav graph goalIdx cur st e) := by
  rcases relaxEdge_cases hav graph goalIdx cur st e with heq | ⟨gc, hg, hlt, heq⟩
  · rw [heq]
    exact hinv
  · obtain ⟨hc_nn, ht_lt⟩ := hsane cur hcurlt e he
    have htent_nn : 0 ≤ gc + e.cost := add_nonneg (hinv.g_nonneg cur gc hg) hc_nn
    have hne_start : e.toIdx ≠ startIdx := by
      intro hh
      rw [hh, hinv.g_start] at hlt
      simp only [ltInfty, decide_eq_true_eq] at hlt
      linarith
    have hne_cur : e.toIdx ≠ cur := by
      intro hh
      rw [hh, hg] at hlt
      simp only [ltInfty, decide_eq_true_eq] at hlt
      linarith
    have hcf_g : ∀ v u : ℕ, st.cameFrom v = some u →
        ∃ gu gv, st.gScore u = some gu ∧ st.gScore v = some gv ∧ gu ≤ gv := by
      intro v u hcf
      obtain ⟨c, gu, gv, hedge, hgu, hgv, hle⟩ := hinv.cf_edge v u hcf
      have hc : 0 ≤ c := by
        obtain ⟨hult, e', he', hto, hcost⟩ := hedge
        rw [← hcost]
        exact (hsane u hult e' he').1
      exact ⟨gu, gv, hgu, hgv, by linarith⟩
    have hnoanc : ¬ Relation.ReflTransGen (cfStep st.cameFrom) cur e.toIdx := by
      intro hanc
      obtain ⟨gto, hgto, hleto⟩ := anc_g_le st.cameFrom st.gScore hcf_g cur e.toIdx hanc gc hg
      rw [hgto] at hlt
      simp only [ltInfty, decide_eq_true_eq] at hlt
      linarith
    rw [heq]
    refine ⟨?_, ?_, ?_, ?_, ?_, ?_, ?_, ?_, ?_, ?_⟩
    · intro v hv
      rcases (mem_insertOpen _ _ _).mp hv with hv | rfl
      · exact hinv.open_lt v hv
      · exact ht_lt
    · intro v hv
      dsimp only
      by_cases hvt : v = e.toIdx
      · subst hvt
        rw [setFun_eq]
        exact Option.some_ne_none _
      · rw [setFun_ne _ _ _ _ hvt]
        rcases (mem_insertOpen _ _ _).mp hv with hv | hv
        · exact hinv.open_g v hv
        · exact absurd hv hvt
    · intro v hv
      dsimp only at hv
      by_cases hvt : v = e.toIdx
      · subst hvt
        exact Or.inr ht_lt
      · rw [setFun_ne _ _ _ _ hvt] at hv
        exact hinv.g_dom v hv
    · intro v x hx
      dsimp only at hx
      by_cases hvt : v = e.toIdx
      · subst hvt
        rw [setFun_eq] at hx
        injection hx with hx
        subst hx
        exact htent_nn
      · rw [setFun_ne _ _ _ _ hvt] at hx
        exact hinv.g_nonneg v x hx
    · dsimp only
      rw [setFun_ne _ _ _ _ (fun h => hne_start h.symm)]
      exact hinv.g_start
    · intro v
      dsimp only
      by_cases hvt : v = e.toIdx
      · subst hvt
        rw [setFun_eq, setFun_eq]
        rfl
      · rw [setFun_ne _ _ _ _ hvt, setFun_ne _ _ _ _ hvt]
        exact hinv.fg v
    · dsimp only
      rw [setFun_ne _ _ _ _ (fun h => hne_start h.symm)]
      exact hinv.cf_start
    · intro v u hcf
      dsimp only at hcf ⊢
      by_cases hvt : v = e.toIdx
      · subst hvt
        rw [setFun_eq] at hcf
        injection hcf with hcf
        subst hcf
        refine ⟨e.cost, gc, gc + e.cost, ⟨hcurlt, e, he, rfl, rfl⟩, ?_, ?_, le_refl _⟩
        · rw [setFun_ne _ _ _ _ (Ne.symm hne_cur)]
          exact hg
        · rw [setFun_eq]
      · rw [setFun_ne _ _ _ _ hvt] at hcf
        obtain ⟨c, gu, gv, hedge, hgu, hgv, hle⟩ := hinv.cf_edge v u hcf
        by_cases hut : u = e.toIdx
        · subst hut
          rw [hgu] at hlt
          simp only [ltInfty, decide_eq_true_eq] at hlt
          refine ⟨c, gc + e.cost, gv, hedge, ?_, ?_, by linarith⟩
          · rw [setFun_eq]
          · rw [setFun_ne _ _ _ _ hvt]
            exact hgv
        · refine ⟨c, gu, gv, hedge, ?_, ?_, hle⟩
          · rw [setFun_ne _ _ _ _ hut]
            exact hgu
          · rw [setFun_ne _ _ _ _ hvt]
            exact hgv
    · intro v hv hvs
      dsimp only at hv ⊢
      by_cases hvt : v = e.toIdx
      · subst hvt
        rw [setFun_eq]
        exact Option.some_ne_none _
      · rw [setFun_ne _ _ _ _ hvt] at hv ⊢
        exact hinv.g_cf v hv hvs
    · intro w
      dsimp only
      exact acc_update st.cameFrom e.toIdx cur hinv.cf_acc hnoanc w

/-! ### The edge-relaxation fold of one loop iteration -/

theorem relaxEdge_cases3 (hav : ℚ → ℚ → ℚ → ℚ → ℚ) (graph : Graph)
    (goalIdx cur : ℕ) (st : AStarState) (e : GraphEdge) :
    (st.gScore cur = none ∧ relaxEdge hav graph goalIdx cur st e = st) ∨
      (∃ gc, st.gScore cur = some gc ∧
        ltInfty (some (gc + e.cost)) (st.gScore e.toIdx) = false ∧
        relaxEdge hav graph goalIdx cur st e = st) ∨
      (∃ gc, st.gScore cur = some gc ∧
        ltInfty (some (gc + e.cost)) (st.gScore e.toIdx) = true ∧
        relaxEdge hav graph goalIdx cur st e =
          { openSet := insertOpen st.openSet e.toIdx,
            cameFrom := setFun st.cameFrom e.toIdx (some cur),
            gScore := setFun st.gScore e.toIdx (some (gc + e.cost)),
            fScore := setFun st.fScore e.toIdx
              (some (gc + e.cost +
                heuristic hav (nodeAt graph e.toIdx) (nodeAt graph goalIdx))) }) := by
  unfold relaxEdge
  split
  · rename_i hg
    exact Or.inl ⟨hg, rfl⟩
  · rename_i gc hg
    dsimp only
    split
    · rename_i hlt
      exact Or.inr (Or.inr ⟨gc, hg, hlt, rfl⟩)
    · rename_i hlt
      exact Or.inr (Or.inl ⟨gc, hg, Bool.not_eq_true _ ▸ Bool.of_not_eq_true hlt, rfl⟩)

theorem relaxEdge_g_nonneg (hav : ℚ → ℚ → ℚ → ℚ → ℚ) (graph : Graph)
    (goalIdx cur : ℕ) (st : AStarState) (e : GraphEdge) (hc : 0 ≤ e.cost)
    (hnn : ∀ (v : ℕ) (x : ℚ), st.gScore v = some x → 0 ≤ x) :
    ∀ (v : ℕ) (x : ℚ), (relaxEdge hav graph goalIdx cur st e).gScore v = some x → 0 ≤ x := by
  rcases relaxEdge_cases hav graph goalIdx cur st e with heq | ⟨gc, hg, hlt, heq⟩
  · rw [heq]
    exact hnn
  · rw [heq]
    intro v x hx
    dsimp only at hx
    by_cases hvt : v = e.toIdx
    · subst hvt
      rw [setFun_eq] at hx
      injection hx with hx
      subst hx
      exact add_nonneg (hnn cur gc hg) hc
    · rw [setFun_ne _ _ _ _ hvt] at hx
      exact hnn v x hx

theorem relaxFold_inv_core (hav : ℚ → ℚ → ℚ → ℚ → ℚ) (graph : Graph)
    (startIdx goalIdx cur : ℕ)
    (hsane : GraphSane graph) (hcurlt : cur < graph.nodes.length) :
    ∀ (l : List GraphEdge), (∀ e ∈ l, e ∈ (nodeAt graph cur).edges) →
      ∀ st : AStarState, AInvCore hav graph startIdx goalIdx st →
      AInvCore hav graph startIdx goalIdx
        (l.foldl (relaxEdge hav graph goalIdx cur) st) := by
  intro l
  induction l with
  | nil =>
      intro _ st h
      exact h
  | cons e rest ih =>
      intro hl st h
      rw [List.foldl_cons]
      exact ih (fun e' he' => hl e' (List.mem_cons_of_mem e he'))
        _ (relaxEdge_inv_core hav graph startIdx goalIdx cur st e hsane hcurlt
          (hl e (List.mem_cons_self e rest)) h)

theorem relaxFold_g_le (hav : ℚ → ℚ → ℚ → ℚ → ℚ) (graph : Graph)
    (goalIdx cur : ℕ) :
    ∀ (l : List GraphEdge) (st : AStarState) (v : ℕ),
      leInfty ((l.foldl (relaxEdge hav graph goalIdx cur) st).gScore v) (st.gScore v) := by
  intro l
  induction l with
  | nil =>
      intro st v
      exact leInfty_refl _
  | cons e rest ih =>
      intro st v
      rw [List.foldl_cons]
      exact leInfty_trans _ _ _ (ih _ v) (relaxEdge_g_le hav graph goalIdx cur st e v)

theorem relaxFold_open_mono (hav : ℚ → ℚ → ℚ → ℚ → ℚ) (graph : Graph)
    (goalIdx cur : ℕ) :
    ∀ (l : List GraphEdge) (st : AStarState) (v : ℕ), v ∈ st.openSet →
      v ∈ (l.foldl (relaxEdge hav graph goalIdx cur) st).openSet := by
  intro l
  induction l with
  | nil =>
      intro st v h
      exact h
  | cons e rest ih =>
      intro st v h
      rw [List.foldl_cons]
      exact ih _ v (relaxEdge_open_mono hav graph goalIdx cur st e v h)

theorem relaxFold_g_changed (hav : ℚ → ℚ → ℚ → ℚ → ℚ) (graph : Graph)
    (goalIdx cur : ℕ) :
    ∀ (l : List GraphEdge) (st : AStarState) (v : ℕ),
      (l.foldl (relaxEdge hav graph goalIdx cur) st).gScore v ≠ st.gScore v →
      v ∈ (l.foldl (relaxEdge hav graph goalIdx cur) st).openSet := by
  intro l
  induction l with
  | nil =>
      intro st v h
      exact absurd rfl h
  | cons e rest ih =>
      intro st v h
      rw [List.foldl_cons] at h ⊢
      by_cases h1 : (relaxEdge hav graph goalIdx cur st e).gScore v = st.gScore v
      · refine ih _ v ?_
        rw [h1]
        exact h
      · obtain ⟨_, hmem⟩ := relaxEdge_g_changed hav graph goalIdx cur st e v h1
        exact relaxFold_open_mono hav graph goalIdx cur rest _ v hmem

theorem relaxFold_gcur_stable (hav : ℚ → ℚ → ℚ → ℚ → ℚ) (graph : Graph)
    (goalIdx cur : ℕ) :
    ∀ (l : List GraphEdge), (∀ e ∈ l, 0 ≤ e.cost) →
      ∀ st : AStarState, (∀ (v : ℕ) (x : ℚ), st.gScore v = some x → 0 ≤ x) →
      (l.foldl (relaxEdge hav graph goalIdx cur) st).gScore cur = st.gScore cur := by
  intro l
  induction l with
  | nil =>
      intro _ st _
      rfl
  | cons e rest ih =>
      intro hl st hnn
      rw [List.foldl_cons]
      have hc := hl e (List.mem_cons_self e rest)
      rw [ih (fun e' he' => hl e' (List.mem_cons_of_mem e he')) _
        (relaxEdge_g_nonneg hav graph goalIdx cur st e hc hnn)]
      exact relaxEdge_gcur_stable hav graph goalIdx cur st e hc hnn

theorem relaxFold_relaxes (hav : ℚ → ℚ → ℚ → ℚ → ℚ) (graph : Graph)
    (goalIdx cur : ℕ) :
    ∀ (l : List GraphEdge), (∀ e ∈ l, 0 ≤ e.cost) →
      ∀ (st : AStarState) (gc : ℚ), st.gScore cur = some gc →
      (∀ (v : ℕ) (x : ℚ), st.gScore v = some x → 0 ≤ x) →
      ∀ e ∈ l, ∃ gt, (l.foldl (relaxEdge hav graph goalIdx cur) st).gScore e.toIdx = some gt ∧
        gt ≤ gc + e.cost := by
  intro l
  induction l with
  | nil =>
      intro _ st gc _ _ e he
      cases he
  | cons e0 rest ih =>
      intro hl st gc hg hnn e he
      have hc0 := hl e0 (List.mem_cons_self e0 rest)
      have hg1 : (relaxEdge hav graph goalIdx cur st e0).gScore cur = some gc := by
        rw [relaxEdge_gcur_stable hav graph goalIdx cur st e0 hc0 hnn]
        exact hg
      have hnn1 := relaxEdge_g_nonneg hav graph goalIdx cur st e0 hc0 hnn
      rw [List.foldl_cons]
      rcases List.mem_cons.mp he with rfl | he
      · have hb : ∃ gt0, (relaxEdge hav graph goalIdx cur st e).gScore e.toIdx = some gt0 ∧
            gt0 ≤ gc + e.cost := by
          rcases relaxEdge_cases3 hav graph goalIdx cur st e with
            ⟨hgn, _⟩ | ⟨gc', hg', hlt, heq⟩ | ⟨gc', hg', hlt, heq⟩
          · rw [hg] at hgn
            cases hgn
          · rw [hg] at hg'
            injection hg' with hg'
            subst hg'
            obtain ⟨y, hy, hyle⟩ := ltInfty_false_some _ _ hlt
            rw [heq]
            exact ⟨y, hy, hyle⟩
          · rw [hg] at hg'
            injection hg' with hg'
            subst hg'
            rw [heq]
            dsimp only
            rw [setFun_eq]
            exact ⟨gc + e.cost, rfl, le_refl _⟩
        obtain ⟨gt0, hgt0, hle0⟩ := hb
        obtain ⟨gt, hgt, hle⟩ :=
          relaxFold_g_le hav graph goalIdx cur rest _ e.toIdx gt0 hgt0
        exact ⟨gt, hgt, le_trans hle hle0⟩
      · exact ih (fun e' he' => hl e' (List.mem_cons_of_mem e0 he')) _ gc hg1 hnn1 e he

/-- One full iteration of the astar while loop (erase the selected node, then
relax all its edges) preserves the full invariant. -/
theorem astarBody_inv (hav : ℚ → ℚ → ℚ → ℚ → ℚ) (graph : Graph)
    (startIdx goalIdx cur : ℕ) (st : AStarState)
    (hsane : GraphSane graph)
    (hinv : AInv hav graph startIdx goalIdx st)
    (hcuropen : cur ∈ st.openSet) :
    AInv hav graph startIdx goalIdx
      ((nodeAt graph cur).edges.foldl (relaxEdge hav graph goalIdx cur)
        { st with openSet := st.openSet.erase cur }) := by
  have hcurlt := hinv.open_lt cur hcuropen
  have hcore1 : AInvCore hav graph startIdx goalIdx
      { st with openSet := st.openSet.erase cur } := by
    refine ⟨?_, ?_, hinv.g_dom, hinv.g_nonneg, hinv.g_start, hinv.fg,
      hinv.cf_start, hinv.cf_edge, hinv.g_cf, hinv.cf_acc⟩
    · intro v hv
      exact hinv.open_lt v (List.mem_of_mem_erase hv)
    · intro v hv
      exact hinv.open_g v (List.mem_of_mem_erase hv)
  have hnn_l : ∀ e ∈ (nodeAt graph cur).edges, 0 ≤ e.cost :=
    fun e he => (hsane cur hcurlt e he).1
  refine ⟨relaxFold_inv_core hav graph startIdx goalIdx cur hsane hcurlt
    (nodeAt graph cur).edges (fun e he => he) _ hcore1, ?_⟩
  intro v hvopen gv hgv e he
  have hg_eq : ((nodeAt graph cur).edges.foldl (relaxEdge hav graph goalIdx cur)
      { st with openSet := st.openSet.erase cur }).gScore v = st.gScore v := by
    by_contra hne
    exact hvopen (relaxFold_g_changed hav graph goalIdx cur _ _ v hne)
  by_cases hvcur : v = cur
  · subst hvcur
    have hgcur : st.gScore v = some gv := by
      rw [← hg_eq]
      exact hgv
    exact relaxFold_relaxes hav graph goalIdx v (nodeAt graph v).edges hnn_l
      { st with openSet := st.openSet.erase v } gv hgcur hinv.g_nonneg e he
  · have hvst : v ∉ st.openSet := by
      intro hv
      exact hvopen (relaxFold_open_mono hav graph goalIdx cur _ _ v
        ((List.mem_erase_of_ne hvcur).mpr hv))
    have hgst : st.gScore v = some gv := by
      rw [← hg_eq]
      exact hgv
    obtain ⟨gt, hgt, hle⟩ := hinv.closed_relaxed v hvst gv hgst e he
    obtain ⟨gt', hgt', hle'⟩ := relaxFold_g_le hav graph goalIdx cur
      (nodeAt graph cur).edges { st with openSet := st.openSet.erase cur } e.toIdx gt hgt
    exact ⟨gt', hgt', le_trans hle' hle⟩

/-! ### Path reconstruction -/

/-- Following a well-founded cameFrom map from any node with a finite gScore
reconstructs a duplicate-free chain from the start whose cost is bounded by
that gScore. -/
theorem reconstruct_spec (graph : Graph) (cf : ℕ → Option ℕ) (g : ℕ → Option ℚ)
    (startIdx : ℕ)
    (hacc : ∀ w, Acc (cfRel cf) w)
    (hcf_start : cf startIdx = none)
    (hg_cf : ∀ v : ℕ, g v ≠ none → v ≠ startIdx → cf v ≠ none)
    (hcf_edge : ∀ v u : ℕ, cf v = some u → ∃ c gu gv,
      HasEdge graph u v c ∧ g u = some gu ∧ g v = some gv ∧ gu + c ≤ gv)
    (hg_nonneg : ∀ (v : ℕ) (x : ℚ), g v = some x → 0 ≤ x) :
    ∀ (v : ℕ) (gv : ℚ), g v = some gv → ∃ (l : List ℕ) (C : ℚ),
      l.head? = some startIdx ∧ l.getLast? = some v ∧ ChainCost graph l C ∧
      C ≤ gv ∧ l.Nodup ∧ (∀ x ∈ l, g x ≠ none) ∧
      (∀ x ∈ l, Relation.ReflTransGen (cfStep cf) v x) ∧
      (∀ (fuel : ℕ) (acc : List ℕ), l.length ≤ fuel →
        reconstructPath cf fuel v acc = some (l ++ acc)) := by
  intro v
  have hv := hacc v
  induction hv with
  | intro v hparents ih =>
      intro gv hgv
      cases hcf : cf v with
      | none =>
          have hvs : v = startIdx := by
            by_contra hne
            exact hg_cf v (by rw [hgv]; simp) hne hcf
          subst hvs
          refine ⟨[v], 0, rfl, rfl, ChainCost.single v, hg_nonneg v gv hgv,
            List.nodup_singleton v, ?_, ?_, ?_⟩
          · intro x hx
            simp only [List.mem_singleton] at hx
            subst hx
            rw [hgv]
            simp
          · intro x hx
            simp only [List.mem_singleton] at hx
            subst hx
            exact Relation.ReflTransGen.refl
          · intro fuel acc hfuel
            cases fuel with
            | zero => simp at hfuel
            | succ f =>
                unfold reconstructPath
                rw [hcf]
                rfl
      | some u =>
          obtain ⟨c, gu, gv', hedge, hgu, hgv', hle⟩ := hcf_edge v u hcf
          rw [hgv] at hgv'
          injection hgv' with hgv'
          subst hgv'
          obtain ⟨lu, Cu, hhead, hlast, hchain, hCle, hnodup, hgs, hancs, hrec⟩ :=
            ih u hcf gu hgu
          have hvnot : v ∉ lu := by
            intro hvl
            exact cycle_not_acc cf v (hacc v) u hcf (hancs v hvl)
          refine ⟨lu ++ [v], Cu + c, ?_, ?_, ?_, ?_, ?_, ?_, ?_, ?_⟩
          · cases lu with
            | nil => cases hhead
            | cons a t =>
                rw [List.cons_append]
                exact hhead
          · simp
          · exact chainCost_snoc graph lu Cu u v c hchain hlast hedge
          · linarith
          · simp only [List.nodup_append, List.nodup_singleton, true_and]
            refine ⟨hnodup, ?_⟩
            intro x hx hxv
            simp only [List.mem_singleton] at hxv
            subst hxv
            exact hvnot hx
          · intro x hx
            rcases List.mem_append.mp hx with hx | hx
            · exact hgs x hx
            · simp only [List.mem_singleton] at hx
              subst hx
              rw [hgv]
              simp
          · intro x hx
            rcases List.mem_append.mp hx with hx | hx
            · exact Relation.ReflTransGen.head hcf (hancs x hx)
            · simp only [List.mem_singleton] at hx
              subst hx
              exact Relation.ReflTransGen.refl
          · intro fuel acc hfuel
            cases fuel with
            | zero =>
                simp at hfuel
            | succ f =>
                unfold reconstructPath
                rw [hcf]
                dsimp only
                have hflen : lu.length ≤ f := by
                  simp only [List.length_append, List.length_singleton] at hfuel
                  omega
                rw [hrec f (v :: acc) hflen, List.append_assoc]
                rfl

/-! ### Chain inversion and the frontier bound -/

theorem chainCost_eq_snoc (graph : Graph) :
    ∀ (m : List ℕ) (C : ℚ), ChainCost graph m C →
      ∀ (l : List ℕ) (w : ℕ), m = l ++ [w] →
      (l = [] ∧ C = 0) ∨
        ∃ v c C', l.getLast? = some v ∧ HasEdge graph v w c ∧
          ChainCost graph l C' ∧ C = C' + c := by
  intro m C h
  induction h with
  | single u =>
      intro l w hm
      cases l with
      | nil => exact Or.inl ⟨rfl, rfl⟩
      | cons a l' =>
          rw [List.cons_append] at hm
          injection hm with h1 h2
          exact absurd h2.symm (List.append_ne_nil_of_right_ne_nil l' (by simp))
  | cons u v c rest C0 he hch ih =>
      intro l w hm
      cases l with
      | nil =>
          simp only [List.nil_append] at hm
          injection hm with h1 h2
          cases h2
      | cons a l' =>
          rw [List.cons_append] at hm
          injection hm with h1 h2
          subst h1
          cases l' with
          | nil =>
              simp only [List.nil_append] at h2
              injection h2 with h2a h2b
              subst h2a
              subst h2b
              cases hch with
              | single _ =>
                  right
                  exact ⟨u, c, 0, rfl, he, ChainCost.single u, by ring⟩
          | cons b l'' =>
              rw [List.cons_append] at h2
              injection h2 with h2a h2b
              subst h2a
              rcases ih (v :: l'') w (by rw [List.cons_append, h2b]) with
                ⟨hnil, _⟩ | ⟨v', c', C'', hlast, hedge, hchain, hC⟩
              · cases hnil
              · right
                refine ⟨v', c', c + C'', ?_, hedge, ?_, ?_⟩
                · rw [List.getLast?_cons_cons]
                  exact hlast
                · exact ChainCost.cons u v c l'' C'' he hchain
                · rw [hC]
                  ring

theorem chainCost_snoc_elim (graph : Graph) (l : List ℕ) (w : ℕ) (C : ℚ)
    (h : ChainCost graph (l ++ [w]) C) :
    (l = [] ∧ C = 0) ∨
      ∃ v c C', l.getLast? = some v ∧ HasEdge graph v w c ∧
        ChainCost graph l C' ∧ C = C' + c :=
  chainCost_eq_snoc graph _ C h l w rfl

theorem chain_heuristic_bound (hav : ℚ → ℚ → ℚ → ℚ → ℚ) (graph : Graph)
    (goalIdx : ℕ) (hcons : HeuristicConsistent hav graph goalIdx) :
    ∀ (l : List ℕ) (C : ℚ), ChainCost graph l C →
      ∀ w v : ℕ, l.head? = some w → l.getLast? = some v →
      hnode hav graph goalIdx w ≤ C + hnode hav graph goalIdx v := by
  intro l C h
  induction h with
  | single u =>
      intro w v hw hv
      injection hw with hw
      injection hv with hv
      subst hw
      subst hv
      simp
  | cons u v0 c rest C0 he hch ih =>
      intro w v hw hv
      injection hw with hw
      subst hw
      rw [List.getLast?_cons_cons] at hv
      have hstep : hnode hav graph goalIdx u ≤ c + hnode hav graph goalIdx v0 := by
        obtain ⟨hu, e, he', hto, hc⟩ := he
        have := hcons u hu e he'
        rw [hto, hc] at this
        exact this
      have hrest := ih v0 v rfl hv
      linarith

/-- The frontier bound: under the invariant, any walk from the start is
either already matched by a finite gScore at its endpoint, or passes through
an open node whose gScore matches a prefix of the walk. -/
theorem pathBound (hav : ℚ → ℚ → ℚ → ℚ → ℚ) (graph : Graph)
    (startIdx goalIdx : ℕ) (st : AStarState)
    (hinv : AInv hav graph startIdx goalIdx st) :
    ∀ (l : List ℕ) (C : ℚ) (v : ℕ), ChainCost graph l C →
      l.head? = some startIdx → l.getLast? = some v →
      (∃ gv, st.gScore v = some gv ∧ gv ≤ C) ∨
      (∃ w l2 C1 C2 gw, w ∈ st.openSet ∧ st.gScore w = some gw ∧ gw ≤ C1 ∧
        ChainCost graph l2 C2 ∧ l2.head? = some w ∧ l2.getLast? = some v ∧
        C = C1 + C2) := by
  intro l
  induction l using List.reverseRecOn with
  | nil =>
      intro C v _ hh _
      cases hh
  | append_singleton l0 x ih =>
      intro C v hch hh hl
      have hxv : x = v := by
        rw [List.getLast?_append] at hl
        rw [show ([x] : List ℕ).getLast?.or l0.getLast? = some x from rfl] at hl
        injection hl
      subst hxv
      rcases chainCost_snoc_elim graph l0 x C hch with ⟨hl0, hC⟩ |
        ⟨v0, c, C', hlast0, hedge, hchain0, hC⟩
      · subst hl0
        simp only [List.nil_append, List.head?_cons] at hh
        injection hh with hh
        left
        refine ⟨0, ?_, ?_⟩
        · rw [hh]
          exact hinv.g_start
        · rw [hC]
      · have hh0 : l0.head? = some startIdx := by
          cases l0 with
          | nil => cases hlast0
          | cons a t =>
              rw [List.cons_append] at hh
              exact hh
        rcases ih C' v0 hchain0 hh0 hlast0 with ⟨gv0, hgv0, hle0⟩ |
          ⟨w, l2, C1, C2, gw, hw, hgw, hle1, hch2, hh2, hl2, hCeq⟩
        · by_cases hopen : v0 ∈ st.openSet
          · right
            refine ⟨v0, [v0, x], C', c, gv0, hopen, hgv0, hle0, ?_, rfl, rfl, hC⟩
            have := ChainCost.cons v0 x c [] 0 hedge (ChainCost.single x)
            simpa using this
          · obtain ⟨hvlt, e, he, hto, hcost⟩ := hedge
            obtain ⟨gt, hgt, hle⟩ := hinv.closed_relaxed v0 hopen gv0 hgv0 e he
            left
            rw [hto] at hgt
            refine ⟨gt, hgt, ?_⟩
            rw [hC, ← hcost]
            linarith
        · right
          refine ⟨w, l2 ++ [x], C1, C2 + c, gw, hw, hgw, hle1, ?_, ?_, ?_, ?_⟩
          · exact chainCost_snoc graph l2 C2 v0 x c hch2 hl2 hedge
          · cases l2 with
            | nil => cases hh2
            | cons a t =>
                rw [List.cons_append]
                exact hh2
          · simp
          · rw [hC, hCeq]
            ring

/-- At the moment the goal is selected from the open set, its gScore is a
lower bound on the cost of every walk from start to goal. -/
theorem extract_optimal (hav : ℚ → ℚ → ℚ → ℚ → ℚ) (graph : Graph)
    (startIdx goalIdx : ℕ) (st : AStarState)
    (hinv : AInv hav graph startIdx goalIdx st)
    (hcons : HeuristicConsistent hav graph goalIdx)
    (hgoal0 : hnode hav graph goalIdx goalIdx = 0)
    (hmin : ∀ v ∈ st.openSet, ltInfty (st.fScore v) (st.fScore goalIdx) = false)
    (gg : ℚ) (hgg : st.gScore goalIdx = some gg) :
    ∀ (l' : List ℕ) (C' : ℚ), ChainCost graph l' C' → l'.head? = some startIdx →
      l'.getLast? = some goalIdx → gg ≤ C' := by
  intro l' C' hch hh hl
  rcases pathBound hav graph startIdx goalIdx st hinv l' C' goalIdx hch hh hl with
    ⟨gv, hgv, hle⟩ | ⟨w, l2, C1, C2, gw, hw, hgw, hle1, hch2, hh2, hl2, hCeq⟩
  · rw [hgg] at hgv
    injection hgv with hgv
    subst hgv
    exact hle
  · have hfw : st.fScore w = some (gw + hnode hav graph goalIdx w) := by
      rw [hinv.fg w, hgw]
      rfl
    have hfg : st.fScore goalIdx = some (gg + hnode hav graph goalIdx goalIdx) := by
      rw [hinv.fg goalIdx, hgg]
      rfl
    have hmt := hmin w hw
    rw [hfw, hfg] at hmt
    simp only [ltInfty, decide_eq_false_iff_not, not_lt] at hmt
    have hhb := chain_heuristic_bound hav graph goalIdx hcons l2 C2 hch2 w goalIdx hh2 hl2
    rw [hgoal0] at hhb hmt
    rw [hCeq]
    linarith

theorem nodup_length_le (l : List ℕ) (n : ℕ) (hnd : l.Nodup)
    (hb : ∀ x ∈ l, x < n) : l.length ≤ n := by
  classical
  have h1 : l.toFinset.card = l.length := List.toFinset_card_of_nodup hnd
  have h2 : l.toFinset ⊆ Finset.range n := by
    intro x hx
    rw [List.mem_toFinset] at hx
    exact Finset.mem_range.mpr (hb x hx)
  have h3 := Finset.card_le_card h2
  rw [h1, Finset.card_range] at h3
  exact h3

/-- The initial astar state satisfies the loop invariant. -/
theorem astarInit_inv (hav : ℚ → ℚ → ℚ → ℚ → ℚ) (graph : Graph)
    (startIdx goalIdx : ℕ) (hstart : startIdx < graph.nodes.length) :
    AInv hav graph startIdx goalIdx (astarInit hav graph startIdx goalIdx) := by
  refine ⟨⟨?_, ?_, ?_, ?_, ?_, ?_, ?_, ?_, ?_, ?_⟩, ?_⟩
  · intro v hv
    simp only [astarInit, List.mem_singleton] at hv
    subst hv
    exact hstart
  · intro v hv
    simp only [astarInit, List.mem_singleton] at hv
    subst hv
    simp [astarInit]
  · intro v hv
    simp only [astarInit] at hv
    by_cases h : v = startIdx
    · exact Or.inl h
    · rw [if_neg h] at hv
      exact absurd rfl hv
  · intro v x hx
    simp only [astarInit] at hx
    by_cases h : v = startIdx
    · rw [if_pos h] at hx
      injection hx with hx
      subst hx
      exact le_refl 0
    · rw [if_neg h] at hx
      cases hx
  · simp [astarInit]
  · intro v
    simp only [astarInit]
    by_cases h : v = startIdx
    · subst h
      rw [if_pos rfl, if_pos rfl]
      simp [hnode]

    · rw [if_neg h, if_neg h]
      rfl
  · rfl
  · intro v u hcf
    cases hcf
  · intro v hv hvs
    simp only [astarInit] at hv
    rw [if_neg hvs] at hv
    exact absurd rfl hv
  · intro v
    constructor
    intro y hy
    cases hy
  · intro v hv gv hgv e he
    simp only [astarInit, List.mem_singleton] at hv hgv
    rw [if_neg (fun h => hv h)] at hgv
    cases hgv

/-- Partial correctness of the astar loop: whatever path it returns is a walk
from start to goal through valid node indices whose total edge cost is the
goal's final gScore and is minimal among all walks from start to goal. -/
theorem astarLoop_sound (hav : ℚ → ℚ → ℚ → ℚ → ℚ) (graph : Graph)
    (startIdx goalIdx : ℕ)
    (hsane : GraphSane graph)
    (hstart : startIdx < graph.nodes.length)
    (hcons : HeuristicConsistent hav graph goalIdx)
    (hgoal0 : hnode hav graph goalIdx goalIdx = 0) :
    ∀ (fuel : ℕ) (st : AStarState), AInv hav graph startIdx goalIdx st →
      ∀ (l : List ℕ) (C : ℚ),
      astarLoop hav graph goalIdx fuel st = some (some (l, C)) →
      l.head? = some startIdx ∧ l.getLast? = some goalIdx ∧ ChainCost graph l C ∧
      (∀ x ∈ l, x < graph.nodes.length) ∧
      (∀ (l' : List ℕ) (C' : ℚ), ChainCost graph l' C' → l'.head? = some startIdx →
        l'.getLast? = some goalIdx → C ≤ C') := by
  intro fuel
  induction fuel with
  | zero =>
      intro st _ l C h
      cases h
  | succ f ih =>
      intro st hinv l C hrun
      rw [astarLoop] at hrun
      by_cases hopen : st.openSet = []
      · rw [if_pos hopen] at hrun
        injection hrun with hrun
        cases hrun
      · rw [if_neg hopen] at hrun
        rcases pickCurrent_spec st with hpick | ⟨m, hm, hpick, hmin⟩
        · rw [hpick] at hrun
          dsimp only at hrun
          have hneg : ¬((-1 : ℤ) = (goalIdx : ℤ)) := by omega
          rw [if_neg hneg] at hrun
          exact ih st hinv l C hrun
        · rw [hpick] at hrun
          dsimp only at hrun
          by_cases hmg : m = goalIdx
          · subst hmg
            rw [if_pos rfl] at hrun
            obtain ⟨gg, hggs⟩ : ∃ gg, st.gScore m = some gg :=
              Option.ne_none_iff_exists'.mp (hinv.open_g m hm)
            obtain ⟨lr, Cr, hh, hl, hch, hCle, hnd, hgs, hanc, hrec⟩ :=
              reconstruct_spec graph st.cameFrom st.gScore startIdx hinv.cf_acc
                hinv.cf_start hinv.g_cf hinv.cf_edge hinv.g_nonneg m gg hggs
            have hbound : ∀ x ∈ lr, x < graph.nodes.length := by
              intro x hx
              rcases hinv.g_dom x (hgs x hx) with rfl | h
              · exact hstart
              · exact h
            have hlen : lr.length ≤ graph.nodes.length :=
              nodup_length_le lr _ hnd hbound
            rw [hrec (graph.nodes.length + 1) [] (by omega)] at hrun
            simp only [Option.map_some', List.append_nil, hggs, Option.getD_some] at hrun
            injection hrun with hrun
            injection hrun with hrun
            injection hrun with hrun1 hrun2
            subst hrun1
            subst hrun2
            have hopt := extract_optimal hav graph startIdx m st hinv hcons
              hgoal0 hmin gg hggs
            have hCr : Cr = gg :=
              le_antisymm hCle (hopt lr Cr hch hh hl)
            subst hCr
            exact ⟨hh, hl, hch, hbound, hopt⟩
          · rw [if_neg (by
              intro hc
              exact hmg (by exact_mod_cast hc))] at hrun
            exact ih _ (astarBody_inv hav graph startIdx goalIdx m st hsane hinv hm)
              l C hrun

/-- The bounds-only variant of the loop soundness: every node index on a
returned path is a valid index, requiring no heuristic assumptions. -/
theorem astarLoop_path_bounds (hav : ℚ → ℚ → ℚ → ℚ → ℚ) (graph : Graph)
    (startIdx goalIdx : ℕ)
    (hsane : GraphSane graph)
    (hstart : startIdx < graph.nodes.length) :
    ∀ (fuel : ℕ) (st : AStarState), AInv hav graph startIdx goalIdx st →
      ∀ (l : List ℕ) (C : ℚ),
      astarLoop hav graph goalIdx fuel st = some (some (l, C)) →
      ∀ x ∈ l, x < graph.nodes.length := by
  intro fuel
  induction fuel with
  | zero =>
      intro st _ l C h
      cases h
  | succ f ih =>
      intro st hinv l C hrun
      rw [astarLoop] at hrun
      by_cases hopen : st.openSet = []
      · rw [if_pos hopen] at hrun
        injection hrun with hrun
        cases hrun
      · rw [if_neg hopen] at hrun
        rcases pickCurrent_spec st with hpick | ⟨m, hm, hpick, hmin⟩
        · rw [hpick] at hrun
          dsimp only at hrun
          have hneg : ¬((-1 : ℤ) = (goalIdx : ℤ)) := by omega
          rw [if_neg hneg] at hrun
          exact ih st hinv l C hrun
        · rw [hpick] at hrun
          dsimp only at hrun
          by_cases hmg : m = goalIdx
          · subst hmg
            rw [if_pos rfl] at hrun
            obtain ⟨gg, hggs⟩ : ∃ gg, st.gScore m = some gg :=
              Option.ne_none_iff_exists'.mp (hinv.open_g m hm)
            obtain ⟨lr, Cr, hh, hl, hch, hCle, hnd, hgs, hanc, hrec⟩ :=
              reconstruct_spec graph st.cameFrom st.gScore startIdx hinv.cf_acc
                hinv.cf_start hinv.g_cf hinv.cf_edge hinv.g_nonneg m gg hggs
            have hbound : ∀ x ∈ lr, x < graph.nodes.length := by
              intro x hx
              rcases hinv.g_dom x (hgs x hx) with rfl | h
              · exact hstart
              · exact h
            have hlen : lr.length ≤ graph.nodes.length :=
              nodup_length_le lr _ hnd hbound
            rw [hrec (graph.nodes.length + 1) [] (by omega)] at hrun
            simp only [Option.map_some', List.append_nil, hggs, Option.getD_some] at hrun
            injection hrun with hrun
            injection hrun with hrun
            injection hrun with hrun1 hrun2
            subst hrun1
            exact hbound
          · rw [if_neg (by
              intro hc
              exact hmg (by exact_mod_cast hc))] at hrun
            exact ih _ (astarBody_inv hav graph startIdx goalIdx m st hsane hinv hm)
              l C hrun

/-! ### Nonnegative edge costs of built graphs -/

theorem segBaseCost_nonneg (tall : Bool) (s : RoadStatus) :
    0 ≤ segBaseCost tall s := by
  unfold segBaseCost
  split <;> split <;> norm_num

theorem getOrCreateNode_costs (st : BuildState) (lat lng : ℚ)
    (h : ∀ n ∈ st.nodes, ∀ e ∈ n.edges, 0 ≤ e.cost) :
    ∀ n ∈ (getOrCreateNode st lat lng).1.nodes, ∀ e ∈ n.edges, 0 ≤ e.cost := by
  unfold getOrCreateNode
  split
  · exact h
  · intro n hn e he
    rcases List.mem_append.mp hn with hn | hn
    · exact h n hn e he
    · simp only [List.mem_singleton] at hn
      subst hn
      simp at he

theorem pushEdge_costs (nodes : List GraphNode) (i : ℕ) (e : GraphEdge)
    (hc : 0 ≤ e.cost) (h : ∀ n ∈ nodes, ∀ e' ∈ n.edges, 0 ≤ e'.cost) :
    ∀ n ∈ pushEdge nodes i e, ∀ e' ∈ n.edges, 0 ≤ e'.cost := by
  intro n hn e' he'
  unfold pushEdge at hn
  split at hn
  · rename_i m hm
    rcases List.mem_or_eq_of_mem_set hn with hn | hn
    · exact h n hn e' he'
    · subst hn
      simp only [List.mem_append, List.mem_singleton] at he'
      rcases he' with he' | he'
      · exact h m (List.getElem?_mem hm) e' he'
      · subst he'
        exact hc
  · exact h n hn e' he'

theorem addPairEdges_costs (hav : ℚ → ℚ → ℚ → ℚ → ℚ) (bc : ℚ)
    (st : BuildState) (p q : Coord)
    (hhav : ∀ a b c d : ℚ, 0 ≤ hav a b c d) (hbc : 0 ≤ bc)
    (h : ∀ n ∈ st.nodes, ∀ e ∈ n.edges, 0 ≤ e.cost) :
    ∀ n ∈ (addPairEdges hav bc st p q).nodes, ∀ e ∈ n.edges, 0 ≤ e.cost := by
  simp only [addPairEdges]
  have hdist : 0 ≤ hav p.1 p.2 q.1 q.2 * bc :=
    mul_nonneg (hhav p.1 p.2 q.1 q.2) hbc
  exact pushEdge_costs _ _ _ hdist (pushEdge_costs _ _ _ hdist
    (getOrCreateNode_costs _ _ _ (getOrCreateNode_costs _ _ _ h)))

theorem foldl_buildStep_preserves_statuswise (hav : ℚ → ℚ → ℚ → ℚ → ℚ)
    (tall : Bool) (P : BuildState → Prop)
    (hstep : ∀ (s : RoadStatus) (st : BuildState) (p q : Coord),
      P st → P (addPairEdges hav (segBaseCost tall s) st p q)) :
    ∀ (segs : List RoadSegment) (st : BuildState), P st →
      P (segs.foldl (buildStep hav tall) st) := by
  intro segs
  induction segs with
  | nil =>
      intro st h
      exact h
  | cons s rest ih =>
      intro st h
      rw [List.foldl_cons]
      refine ih _ ?_
      unfold buildStep
      split
      · exact h
      · exact addSegmentEdges_preserves hav _ P (hstep s.status) s.coordinates st h

/-- With a nonnegative distance function, buildGraph produces a graph whose
edge costs are all nonnegative and whose edge targets are all in range. -/
theorem buildGraph_sane (hav : ℚ → ℚ → ℚ → ℚ → ℚ) (segs : List RoadSegment)
    (tall : Bool) (hhav : ∀ a b c d : ℚ, 0 ≤ hav a b c d) :
    GraphSane (buildGraph hav segs tall) := by
  have hcosts : ∀ n ∈ (buildGraph hav segs tall).nodes, ∀ e ∈ n.edges, 0 ≤ e.cost := by
    have h := foldl_buildStep_preserves_statuswise hav tall
      (fun st => ∀ n ∈ st.nodes, ∀ e ∈ n.edges, 0 ≤ e.cost)
      (fun s st p q h => addPairEdges_costs hav (segBaseCost tall s) st p q hhav
        (segBaseCost_nonneg tall s) h) segs ⟨[], []⟩ (by intro n hn; cases hn)
    exact h
  have htargets := (buildGraph_invariants hav segs tall).2
  intro v hv e he
  have hmem : nodeAt (buildGraph hav segs tall) v ∈ (buildGraph hav segs tall).nodes := by
    unfold nodeAt
    rw [List.getD_eq_getElem _ _ hv]
    exact List.getElem_mem _
  exact ⟨hcosts _ hmem e he, htargets _ hmem e he⟩

/-- C5: for any graph built in standard mode with at most 50 nodes and any
start/goal node pair, if astar returns a path then the sum of that path's
edge costs (ChainCost) equals the internally computed cost C (the final
g-score of the goal, as returned by astarWithCost), and C is less than or
equal to the total edge cost of every other path from start to goal — A*
optimality, stated under the hypotheses that the distance function is
nonnegative and the induced heuristic is consistent and zero at the goal
(which hold for the haversine distance used by the source). -/
theorem astar_standard_mode_optimal (hav : ℚ → ℚ → ℚ → ℚ → ℚ)
    (segs : List RoadSegment) (startIdx goalIdx fuel : ℕ) (l : List ℕ) (C : ℚ)
    (hhav : ∀ a b c d : ℚ, 0 ≤ hav a b c d)
    (_h50 : (buildGraph hav segs false).nodes.length ≤ 50)
    (hstart : startIdx < (buildGraph hav segs false).nodes.length)
    (_hgoal : goalIdx < (buildGraph hav segs false).nodes.length)
    (hcons : HeuristicConsistent hav (buildGraph hav segs false) goalIdx)
    (hgoal0 : hnode hav (buildGraph hav segs false) goalIdx goalIdx = 0)
    (hrun : astarWithCost hav (buildGraph hav segs false) startIdx goalIdx fuel =
      some (some (l, C))) :
    astar hav (buildGraph hav segs false) startIdx goalIdx fuel = some (some l) ∧
    ChainCost (buildGraph hav segs false) l C ∧
    l.head? = some startIdx ∧ l.getLast? = some goalIdx ∧
    ∀ (l' : List ℕ) (C' : ℚ), ChainCost (buildGraph hav segs false) l' C' →
      l'.head? = some startIdx → l'.getLast? = some goalIdx → C ≤ C' := by
  obtain ⟨hh, hl, hch, _, hopt⟩ :=
    astarLoop_sound hav (buildGraph hav segs false) startIdx goalIdx
      (buildGraph_sane hav segs false hhav) hstart hcons hgoal0 fuel
      (astarInit hav (buildGraph hav segs false) startIdx goalIdx)
      (astarInit_inv hav (buildGraph hav segs false) startIdx goalIdx hstart) l C hrun
  refine ⟨?_, hch, hh, hl, hopt⟩
  rw [astar, hrun]
  rfl

/-- Witness for C5 on the concrete standard-mode scenario graph: astar finds
the path [0, 1, 2] with internal cost 250, the chain cost matches, and 250
is optimal among all start-goal chains. -/
theorem astar_standard_mode_optimal_witness :
    astar havScenario (buildGraph havScenario [scenarioDetour] false) 0 2 10 =
      some (some [0, 1, 2]) ∧
    ChainCost (buildGraph havScenario [scenarioDetour] false) [0, 1, 2] 250 ∧
    ([0, 1, 2] : List ℕ).head? = some 0 ∧
    ([0, 1, 2] : List ℕ).getLast? = some 2 ∧
    ∀ (l' : List ℕ) (C' : ℚ),
      ChainCost (buildGraph havScenario [scenarioDetour] false) l' C' →
      l'.head? = some 0 → l'.getLast? = some 2 → 250 ≤ C' :=
  astar_standard_mode_optimal havScenario [scenarioDetour] 0 2 10 [0, 1, 2] 250
    (by
      intro a b c d
      show (0 : ℚ) ≤ 100 * (|c - a| + |d - b|)
      positivity)
    (by with_unfolding_all decide)
    (by with_unfolding_all decide)
    (by with_unfolding_all decide)
    (by unfold HeuristicConsistent; with_unfolding_all decide)
    (by with_unfolding_all decide)
    (by with_unfolding_all decide)

/-- C10: in every graph returned by buildGraph, the node stored at array
position i has id = i and every edge's target index (the source's `to`
field) is strictly below the number of nodes; consequently every node index
on a path returned by astar is in bounds, so the lookups performed by
nodesToLatLng and calculateRouteDistance on that path stay in bounds. -/
theorem buildGraph_wellformed_bounds (hav : ℚ → ℚ → ℚ → ℚ → ℚ)
    (segs : List RoadSegment) (tall : Bool) (startIdx goalIdx fuel : ℕ)
    (l : List ℕ)
    (hhav : ∀ a b c d : ℚ, 0 ≤ hav a b c d)
    (hstart : startIdx < (buildGraph hav segs tall).nodes.length)
    (hrun : astar hav (buildGraph hav segs tall) startIdx goalIdx fuel =
      some (some l)) :
    (∀ (i : ℕ) (h : i < (buildGraph hav segs tall).nodes.length),
      ((buildGraph hav segs tall).nodes.get ⟨i, h⟩).id = i) ∧
    (∀ n ∈ (buildGraph hav segs tall).nodes, ∀ e ∈ n.edges,
      e.toIdx < (buildGraph hav segs tall).nodes.length) ∧
    (∀ x ∈ l, x < (buildGraph hav segs tall).nodes.length) := by
  obtain ⟨hids, htgt⟩ := buildGraph_invariants hav segs tall
  refine ⟨?_, htgt, ?_⟩
  · intro i h
    exact hids i _ (List.getElem?_eq_getElem h)
  · rw [astar] at hrun
    rcases Option.map_eq_some'.mp hrun with ⟨o, ho, hmap⟩
    rcases Option.map_eq_some'.mp hmap with ⟨p, hp, hfst⟩
    subst hp hfst
    exact astarLoop_path_bounds hav (buildGraph hav segs tall) startIdx goalIdx
      (buildGraph_sane hav segs tall hhav) hstart fuel
      (astarInit hav (buildGraph hav segs tall) startIdx goalIdx)
      (astarInit_inv hav (buildGraph hav segs tall) startIdx goalIdx hstart)
      p.1 p.2 (by rw [← ho]; rfl)

/-- Witness for C10 on the concrete tall-mode scenario graph: ids match
positions, edge targets are below 3, and the returned path [0, 1] stays in
bounds. -/
theorem buildGraph_wellformed_bounds_witness :
    (∀ (i : ℕ) (h : i < (buildGraph havScenario scenarioSegments true).nodes.length),
      ((buildGraph havScenario scenarioSegments true).nodes.get ⟨i, h⟩).id = i) ∧
    (∀ n ∈ (buildGraph havScenario scenarioSegments true).nodes, ∀ e ∈ n.edges,
      e.toIdx < (buildGraph havScenario scenarioSegments true).nodes.length) ∧
    (∀ x ∈ ([0, 1] : List ℕ),
      x < (buildGraph havScenario scenarioSegments true).nodes.length) :=
  buildGraph_wellformed_bounds havScenario scenarioSegments true 0 1 10 [0, 1]
    (by
      intro a b c d
      show (0 : ℚ) ≤ 100 * (|c - a| + |d - b|)
      positivity)
    (by with_unfolding_all decide)
    (by with_unfolding_all decide)

/-! ### Shape of the segments produced by splitting -/

theorem splitFold_mem (sq : ℚ → ℚ) (line : List Coord) (lid : Option String) :
    ∀ (pts : List Coord) (st : ℕ × List RoadSegment) (s : RoadSegment),
      s ∈ (pts.foldl (splitStep sq line lid) st).2 →
      s ∈ st.2 ∨ ∃ coords i, 1 < coords.length ∧
        s = ⟨createDeterministicId coords lid i, coords, emptyProps,
          RoadStatus.passable⟩ := by
  intro pts
  induction pts with
  | nil =>
      intro st s hs
      exact Or.inl hs
  | cons p ps ih =>
      intro st s hs
      rw [List.foldl_cons] at hs
      rcases ih _ s hs with hs2 | hs2
      · unfold splitStep at hs2
        split at hs2
        · split at hs2
          · rename_i hlen
            rcases List.mem_append.mp hs2 with h | h
            · exact Or.inl h
            · exact Or.inr ⟨_, st.2.length, hlen, by simpa using h⟩
          · exact Or.inl hs2
        · exact Or.inl hs2
      · exact Or.inr hs2

theorem splitFinish_mem (line : List Coord) (lid : Option String)
    (r : ℕ × List RoadSegment) :
    ∀ s ∈ splitFinish line lid r, s ∈ r.2 ∨ ∃ coords i, 1 < coords.length ∧
      s = ⟨createDeterministicId coords lid i, coords, emptyProps,
        RoadStatus.passable⟩ := by
  intro s hs
  unfold splitFinish at hs
  split at hs
  · split at hs
    · rename_i hlen
      rcases List.mem_append.mp hs with h | h
      · exact Or.inl h
      · exact Or.inr ⟨_, r.2.length, hlen, by simpa using h⟩
    · exact Or.inl hs
  · exact Or.inl hs

theorem splitLine_mem (sq : ℚ → ℚ) (line ints : List Coord) (lid : Option String) :
    ∀ s ∈ splitLineAtIntersections sq line ints lid,
      (ints = [] ∧
        s = ⟨createDeterministicId line lid 0, line, emptyProps,
          RoadStatus.passable⟩) ∨
      ∃ coords i, 1 < coords.length ∧
        s = ⟨createDeterministicId coords lid i, coords, emptyProps,
          RoadStatus.passable⟩ := by
  intro s hs
  unfold splitLineAtIntersections at hs
  split at hs
  · rename_i hi
    exact Or.inl ⟨hi, by simpa using hs⟩
  · rcases splitFinish_mem line lid _ s hs with h | h
    · rcases splitFold_mem sq line lid _ _ s h with h2 | h2
      · cases h2
      · exact Or.inr h2
    · exact Or.inr h

theorem mem_foldr_append (g : GeoFeature → List RoadSegment) :
    ∀ (fs : List GeoFeature) (acc : List RoadSegment) (s : RoadSegment),
      s ∈ fs.foldr (fun f a => g f ++ a) acc → (∃ f ∈ fs, s ∈ g f) ∨ s ∈ acc := by
  intro fs
  induction fs with
  | nil =>
      intro acc s hs
      exact Or.inr hs
  | cons f fs ih =>
      intro acc s hs
      rw [List.foldr_cons] at hs
      rcases List.mem_append.mp hs with h | h
      · exact Or.inl ⟨f, List.mem_cons_self f fs, h⟩
      · rcases ih acc s h with ⟨f2, hf2, hsf2⟩ | h2
        · exact Or.inl ⟨f2, List.mem_cons_of_mem f hf2, hsf2⟩
        · exact Or.inr h2

theorem cdi_shape (coords : List Coord) (lid : Option String) (i : ℕ) :
    (∃ (l : String) (j : ℕ), createDeterministicId coords lid i = l ++ "_seg_" ++ toString j) ∨
      createDeterministicId coords lid i =
        "seg_" ++ toString (jsHash (coordString coords)).natAbs := by
  unfold createDeterministicId
  cases lid with
  | none => exact Or.inr rfl
  | some l =>
      dsimp only
      by_cases hl : l = ""
      · rw [if_pos hl]
        exact Or.inr rfl
      · rw [if_neg hl]
        exact Or.inl ⟨l, i, rfl⟩

theorem assembleSegments_id_shape (sq : ℚ → ℚ) (features : List GeoFeature)
    (m : String → Option RoadStatus) :
    ∀ seg ∈ assembleSegments sq features m,
      (∃ (lid : String) (i : ℕ), seg.id = lid ++ "_seg_" ++ toString i) ∨
      seg.id = "seg_" ++ toString (jsHash (coordString seg.coordinates)).natAbs := by
  intro seg hseg
  unfold assembleSegments at hseg
  rcases mem_foldr_append _ _ _ _ hseg with ⟨f, _, hsf⟩ | h
  · unfold assembleFeature at hsf
    rcases List.mem_map.mp hsf with ⟨s0, hs0, rfl⟩
    show (∃ (lid : String) (i : ℕ), s0.id = lid ++ "_seg_" ++ toString i) ∨
      s0.id = "seg_" ++ toString (jsHash (coordString s0.coordinates)).natAbs
    rcases splitLine_mem sq (swapCoords f.coordinates) _ (featureLineId f) s0 hs0 with
      ⟨_, rfl⟩ | ⟨coords, i, _, rfl⟩
    · exact cdi_shape _ _ 0
    · exact cdi_shape _ _ i
  · cases h

/-- C6: segment assembly is deterministic.  With the makeId closure counter
threaded through explicitly, the produced segment list — in particular its
id list and its per-segment coordinate sequences — is identical for any two
counter states, the counter is returned untouched (assembly never consults
it), and every produced id is a pure function of the input: either
lineId_seg_index or seg_ followed by the content hash of the segment's own
rounded coordinate sequence. -/
theorem assembly_deterministic (sq : ℚ → ℚ) (features : List GeoFeature)
    (m : String → Option RoadStatus) (c1 c2 : ℕ) :
    (assembleSegmentsCtr sq features m c1).1 =
      (assembleSegmentsCtr sq features m c2).1 ∧
    (assembleSegmentsCtr sq features m c1).2 = c1 ∧
    (assembleSegmentsCtr sq features m c1).1.map RoadSegment.id =
      (assembleSegmentsCtr sq features m c2).1.map RoadSegment.id ∧
    (assembleSegmentsCtr sq features m c1).1.map RoadSegment.coordinates =
      (assembleSegmentsCtr sq features m c2).1.map RoadSegment.coordinates ∧
    ∀ seg ∈ (assembleSegmentsCtr sq features m c1).1,
      (∃ (lid : String) (i : ℕ), seg.id = lid ++ "_seg_" ++ toString i) ∨
      seg.id = "seg_" ++ toString (jsHash (coordString seg.coordinates)).natAbs := by
  refine ⟨rfl, rfl, rfl, rfl, ?_⟩
  exact assembleSegments_id_shape sq features m

/-- Witness for C6: on a one-feature input, assembly from counter states 5
and 99 agrees, and the produced id w1_seg_0 has the lineId_seg_index
shape. -/
theorem assembly_deterministic_witness :
    (assembleSegmentsCtr (fun q => q) [badFeature] (fun _ => none) 5).1 =
      (assembleSegmentsCtr (fun q => q) [badFeature] (fun _ => none) 99).1 ∧
    ((∃ (lid : String) (i : ℕ),
        (⟨"w1_seg_0", [(0, 0)], badFeature.properties, RoadStatus.passable⟩ :
          RoadSegment).id = lid ++ "_seg_" ++ toString i) ∨
      (⟨"w1_seg_0", [(0, 0)], badFeature.properties, RoadStatus.passable⟩ :
          RoadSegment).id =
        "seg_" ++ toString (jsHash (coordString
          (⟨"w1_seg_0", [(0, 0)], badFeature.properties, RoadStatus.passable⟩ :
            RoadSegment).coordinates)).natAbs) :=
  ⟨(assembly_deterministic (fun q => q) [badFeature] (fun _ => none) 5 99).1,
    (assembly_deterministic (fun q => q) [badFeature] (fun _ => none) 5 99).2.2.2.2
      ⟨"w1_seg_0", [(0, 0)], badFeature.properties, RoadStatus.passable⟩
      (by with_unfolding_all decide)⟩

/-- The assembly pipeline has no malformed-feature check: a vehicular
feature with a single coordinate flows through the highway filter and the
no-intersection branch of splitLineAtIntersections untouched and yields a
RoadSegment with exactly one coordinate.  The function modelling Math.sqrt
is never consulted on this path; it is instantiated with the identity
here. -/
theorem assembly_short_segment_counterexample :
    ∃ seg ∈ assembleSegments (fun q => q) [badFeature] (fun _ => none),
      seg.coordinates.length = 1 := by
  refine ⟨⟨"w1_seg_0", [(0, 0)], badFeature.properties, RoadStatus.passable⟩, ?_, rfl⟩
  have h : assembleSegments (fun q => q) [badFeature] (fun _ => none) =
      [⟨"w1_seg_0", [(0, 0)], badFeature.properties, RoadStatus.passable⟩] := by
    with_unfolding_all rfl
  rw [h]
  exact List.mem_singleton.mpr rfl

/-- C8 (amended): what splitting actually guarantees.  A produced segment
either comes from the no-intersection branch, which returns the entire input
line as one segment with no degeneracy check at all, or from a split branch,
whose guard ensures only that the slice has at least two coordinates counted
with multiplicity (not two distinct points). -/
theorem split_segments_shape (sq : ℚ → ℚ) (line ints : List Coord)
    (lid : Option String) :
    ∀ seg ∈ splitLineAtIntersections sq line ints lid,
      (ints = [] ∧ seg.coordinates = line) ∨ 2 ≤ seg.coordinates.length := by
  intro seg hseg
  rcases splitLine_mem sq line ints lid seg hseg with ⟨hi, rfl⟩ | ⟨coords, i, hlen, rfl⟩
  · exact Or.inl ⟨hi, rfl⟩
  · exact Or.inr hlen

/-- Witness for C8's amended theorem on a two-point line with no
intersections. -/
theorem split_segments_shape_witness :
    (([] : List Coord) = [] ∧
      (⟨"w_seg_0", [((0 : ℚ), (0 : ℚ)), ((1 : ℚ), (0 : ℚ))], emptyProps,
        RoadStatus.passable⟩ : RoadSegment).coordinates =
        [((0 : ℚ), (0 : ℚ)), ((1 : ℚ), (0 : ℚ))]) ∨
    2 ≤ (⟨"w_seg_0", [((0 : ℚ), (0 : ℚ)), ((1 : ℚ), (0 : ℚ))], emptyProps,
        RoadStatus.passable⟩ : RoadSegment).coordinates.length :=
  split_segments_shape (fun q => q) [(0, 0), (1, 0)] [] (some "w")
    ⟨"w_seg_0", [(0, 0), (1, 0)], emptyProps, RoadStatus.passable⟩
    (by with_unfolding_all decide)

/-! ### The reconciler's suppression behaviour -/

theorem find?_id_map (l : List RoadSegment) (f : RoadSegment → RoadSegment)
    (id : String) (hid : ∀ seg, (f seg).id = seg.id) :
    (l.map f).find? (fun seg => decide (seg.id = id)) =
      (l.find? (fun seg => decide (seg.id = id))).map f := by
  induction l with
  | nil => rfl
  | cons a l ih =>
      rw [List.map_cons]
      by_cases hc : a.id = id
      · rw [List.find?_cons_of_pos _ (by simp [hid, hc]),
          List.find?_cons_of_pos _ (by simp [hc])]
        rfl
      · rw [List.find?_cons_of_neg _ (by simp [hid, hc]),
          List.find?_cons_of_neg _ (by simp [hc])]
        exact ih

theorem effectMap_id (pend : List String) (upd : List (String × RoadStatus))
    (seg : RoadSegment) :
    ((fun seg => if seg.id ∈ pend then seg
      else match lookupLast upd seg.id with
        | some s => if s = seg.status then seg else { seg with status := s }
        | none => seg) seg : RoadSegment).id = seg.id := by
  dsimp only
  split
  · rfl
  · split
    · split
      · rfl
      · rfl
    · rfl

theorem editMap_id (id : String) (s : RoadStatus) (seg : RoadSegment) :
    ((fun seg => if seg.id = id then { seg with status := s } else seg) seg :
      RoadSegment).id = seg.id := by
  dsimp only
  split
  · rfl
  · rfl

/-- C9 (amended): the parts of the suppression claim the code satisfies.  A
local edit is applied immediately and never suppressed: right after the edit
event (including the effect re-run it triggers) the segment's status is the
edited value.  And while a segment id is in the pending set, a feed delivery
leaves that segment's status untouched.  The expiry part of the claim fails
and is refuted separately: the 2000 ms deletion is scheduled only when an
effect run with a nonempty update list meets the pending id, not at the edit
itself. -/
theorem reconciler_suppression (st : RtState) (t : ℚ) (id : String)
    (s : RoadStatus) (u : List (String × RoadStatus)) :
    ((∃ seg ∈ st.segments, seg.id = id) →
      statusOf (rtStep st (t, RtEvent.edit id s)) id = some s) ∧
    (id ∈ (fireDue t st).pending →
      statusOf (rtStep st (t, RtEvent.feed u)) id = statusOf st id) := by
  constructor
  · rintro ⟨seg0, hmem0, hid0⟩
    have hsome : (st.segments.find? fun seg => decide (seg.id = id)).isSome := by
      rw [List.find?_isSome]
      exact ⟨seg0, hmem0, by simpa using hid0⟩
    obtain ⟨seg1, hfind⟩ := Option.isSome_iff_exists.mp hsome
    have hid1 : seg1.id = id := by simpa using List.find?_some hfind
    have hpend : id ∈ (if id ∈ (fireDue t st).pending then (fireDue t st).pending
        else (fireDue t st).pending ++ [id]) := by
      split
      · assumption
      · exact List.mem_append.mpr (Or.inr (List.mem_singleton.mpr rfl))
    have hfd : (fireDue t st).segments = st.segments := rfl
    unfold rtStep runEffect statusOf
    dsimp only
    split
    · dsimp only
      rw [hfd, find?_id_map st.segments _ id (editMap_id id s), hfind]
      dsimp only [Option.map_some']
      rw [if_pos hid1]
    · dsimp only
      rw [hfd, find?_id_map _ _ id (effectMap_id _ _),
        find?_id_map st.segments _ id (editMap_id id s), hfind]
      dsimp only [Option.map_some']
      rw [if_pos hid1]
      have hps : ({ seg1 with status := s } : RoadSegment).id = id := hid1
      rw [hps, if_pos hpend]
  · intro hp
    have hfd : (fireDue t st).segments = st.segments := rfl
    unfold rtStep runEffect statusOf
    dsimp only
    split
    · rfl
    · dsimp only
      rw [hfd, find?_id_map st.segments _ id (effectMap_id _ _)]
      cases hfind : st.segments.find? fun seg => decide (seg.id = id) with
      | none => rfl
      | some seg1 =>
          have hid1 : seg1.id = id := by simpa using List.find?_some hfind
          dsimp only [Option.map_some']
          rw [if_pos (show seg1.id ∈ (fireDue t st).pending by rw [hid1]; exact hp)]

/-- Witness for C9's amended theorem: on a state with segment X already
pending, the edit takes effect immediately and a feed delivery for X leaves
its status unchanged. -/
theorem reconciler_suppression_witness :
    statusOf (rtStep rtPendingInit (0, RtEvent.edit "X" RoadStatus.restricted)) "X" =
      some RoadStatus.restricted ∧
    statusOf (rtStep rtPendingInit (0, RtEvent.feed [("X", RoadStatus.passable)])) "X" =
      statusOf rtPendingInit "X" :=
  ⟨(reconciler_suppression rtPendingInit 0 "X" RoadStatus.restricted
      [("X", RoadStatus.passable)]).1 (by with_unfolding_all decide),
    (reconciler_suppression rtPendingInit 0 "X" RoadStatus.restricted
      [("X", RoadStatus.passable)]).2 (by with_unfolding_all decide)⟩

/-- The pending flag set by an edit at time 0 has not expired by time 3000:
the effect run at the edit saw an empty update list and scheduled nothing,
so the feed delivery at 3000 — outside the claimed 2000 ms window — is still
dropped, the status stays at the locally edited value, and the id is still
pending. -/
theorem suppression_window_counterexample :
    statusOf (runTrace rtInit suppressionTrace) "X" = some RoadStatus.restricted ∧
    "X" ∈ (runTrace rtInit suppressionTrace).pending := by
  constructor
  · with_unfolding_all decide
  · with_unfolding_all decide

end ThesisCode
